import Mathlib

/-!
Verification of the pathfinding core of `Pathing/GPS.py` (the Disability-GPS
repository): the wheelchair-accessibility cost function `costWheelchair`, the
Euclidean heuristic `euclidianDistNode`, the search entry point
`wheelchairPath`, and the coordinate front end `pathFromCoords`.

The Python source delegates the actual best-first search to the external
library call `nx.astar_path`; that code is not part of the repository, so the
search engine is modelled from the specification's description of the A*
algorithm (section 4.3 of the spec).  Everything else is translated directly
from the source.

Numeric values (Python floats) are modelled by a linear ordered field `W`,
instantiated with `ℝ` for the functions whose source fixes the float
interpretation (the square root in the heuristic).
-/

namespace GPS

/-- Node identifiers; OSM ids are integers in the source. -/
abbrev NodeId := Nat

/-- The node attributes read by the source: the planar position `x`, `y`
(`G.nodes[u]['x']`, `G.nodes[u]['y']`) and an optional display name
(`data.get('name')` in `searchNodeName`). -/
structure NodeData (W : Type) where
  x : W
  y : W
  name : Option String := none
  deriving DecidableEq

/-- The edge attributes read by the source: `data.get("wheelchair")` and
`data.get("length", 1)` in `costWheelchair`.  Both attributes may be absent,
hence `Option`. -/
structure EdgeData (W : Type) where
  wheelchair : Option String := none
  length : Option W := none
  deriving DecidableEq

/-- A directed edge of the street multigraph.  Parallel edges between the same
pair of endpoints are permitted: the graph stores a plain list of edge
records. -/
structure Edge (W : Type) where
  src : NodeId
  dst : NodeId
  data : EdgeData W
  deriving DecidableEq

/-- The street map: the `networkx.MultiDiGraph` of the source, reduced to the
shape the pathfinding core reads (node attribute lookup and outgoing-edge
lookup). -/
structure Graph (W : Type) where
  nodes : List (NodeId × NodeData W)
  edges : List (Edge W)
  deriving DecidableEq

/-- The identifiers present in the graph's node set. -/
def Graph.nodeIds (G : Graph W) : List NodeId :=
  G.nodes.map (·.1)

/-- Attribute lookup for a node, `G.nodes[u]` in the source. -/
def Graph.findNode (G : Graph W) (u : NodeId) : Option (NodeData W) :=
  (G.nodes.find? (fun p => p.1 == u)).map (·.2)

/-- The outgoing edges of `u`, the adjacency `G_succ[u]` the search iterates
over. -/
def Graph.outEdges (G : Graph W) (u : NodeId) : List (Edge W) :=
  G.edges.filter (fun e => e.src == u)

/-- An edge-traversal cost: a finite value of `W` or positive infinity
(`float('inf')` in the source). -/
inductive CostVal (W : Type) where
  | val (c : W)
  | inf
  deriving DecidableEq

/-- Cost addition: infinity is absorbing. -/
def CostVal.add [Add W] : CostVal W → CostVal W → CostVal W
  | .val a, .val b => .val (a + b)
  | _, _ => .inf

/-- Embedding of `costWheelchair(u, v, data)` (GPS.py lines 78–82): the
edge's `length` attribute (default `1`) when the `wheelchair` attribute is
exactly the string `"yes"`, positive infinity otherwise. -/
def costWheelchair [One W] (u v : NodeId) (data : EdgeData W) : CostVal W :=
  if data.wheelchair = some "yes" then .val (data.length.getD 1)
  else .inf

/-- A chain of edges of `G` leading from `u` to `v`; the empty chain connects
every node to itself.  This is the "path" of the spec's data model, recorded
by the edges actually traversed so that parallel edges keep their own
lengths. -/
def IsEdgePath (G : Graph W) : NodeId → NodeId → List (Edge W) → Prop
  | u, v, [] => u = v
  | u, v, e :: es => e ∈ G.edges ∧ e.src = u ∧ IsEdgePath G e.dst v es

/-- Total cost of a chain of edges under a cost function, infinity-absorbing. -/
def pathCost [Add W] [Zero W] (cost : NodeId → NodeId → EdgeData W → CostVal W)
    (es : List (Edge W)) : CostVal W :=
  es.foldr (fun e acc => (cost e.src e.dst e.data).add acc) (.val 0)

/-- The node sequence determined by a start node and a chain of edges. -/
def nodesOf (u : NodeId) (es : List (Edge W)) : List NodeId :=
  u :: es.map (·.dst)

/-! ## The Euclidean heuristic -/

/-- The planar position of a node, as a point of `ℂ` (used only to relate the
source's distance formula to the Euclidean metric). -/
def NodeData.pt (a : NodeData ℝ) : ℂ :=
  ⟨a.x, a.y⟩

/-- Embedding of `euclidianDistNode(u, v, G)` (GPS.py lines 164–169):
`sqrt((x1 - x2) ** 2 + (y1 - y2) ** 2)` on the nodes' stored positions.
The source raises a `KeyError` when a node is absent; that region is modelled
by the default value `0`, and every theorem below assumes the nodes are
present.  The function is pure: it only reads the graph. -/
noncomputable def euclidianDistNode (u v : NodeId) (G : Graph ℝ) : ℝ :=
  match G.findNode u, G.findNode v with
  | some a, some b => Real.sqrt ((a.x - b.x) ^ 2 + (a.y - b.y) ^ 2)
  | _, _ => 0

/-- The spec's graph invariant: every edge's endpoints reference nodes present
in the node set. -/
def GraphWF (G : Graph W) : Prop :=
  ∀ e ∈ G.edges, e.src ∈ G.nodeIds ∧ e.dst ∈ G.nodeIds

/-- Unit consistency: every finite edge cost is at least the straight-line
distance between the edge's endpoints.  This is the condition the spec itself
identifies as necessary for the Euclidean heuristic to be admissible ("adissible
only if `length` values are ≥ straight-line distance in the same units"). -/
def UnitConsistent (G : Graph ℝ) : Prop :=
  ∀ e ∈ G.edges, ∀ c, costWheelchair e.src e.dst e.data = .val c →
    euclidianDistNode e.src e.dst G ≤ c

/-- The heuristic never overestimates the cost of any finite-cost path from
`u` to `v` — hence it is a lower bound on the minimum accessible-path cost. -/
def HeuristicAdmissibleAt (G : Graph ℝ) (u v : NodeId) : Prop :=
  ∀ es c, IsEdgePath G u v es → pathCost costWheelchair es = .val c →
    euclidianDistNode u v G ≤ c

/-! ## The search engine

The Python source delegates the search to the external call
`nx.astar_path(G, origin, endpoint, heuristic, weight)`; that code is not in
the repository, so the engine below is modelled from the spec's description
of the algorithm (section 4.3): a best-first loop over a priority frontier
with per-node best-known costs (`gScore`), predecessor links, a finalized
set, skipping of infinite-cost edges, and path reconstruction by walking
predecessor links back from the destination. -/

/-- Association-list lookup keyed by node identifier; the most recent update
is consed to the front, so `find?` returns the current value. -/
def lookup? (l : List (NodeId × α)) (k : NodeId) : Option α :=
  (l.find? (fun p => p.1 == k)).map (·.2)

/-- Modelled from the spec: the priority frontier of the missing
`nx.astar_path` call, kept as a list sorted by ascending priority.  A new
entry is inserted after all entries of equal priority, so ties break by
insertion order as the spec requires. -/
def pushFrontier [LinearOrder W] (pri : W) (n : NodeId) :
    List (W × NodeId) → List (W × NodeId)
  | [] => [(pri, n)]
  | e :: es => if pri < e.1 then (pri, n) :: e :: es
               else e :: pushFrontier pri n es

/-- Modelled from the spec: the per-search state of the missing
`nx.astar_path` call — the read-only graph, the priority frontier, the
`gScore` map, the predecessor map, and the set of finalized nodes. -/
structure AStarState (W : Type) where
  graph : Graph W
  frontier : List (W × NodeId)
  gscore : List (NodeId × W)
  pred : List (NodeId × NodeId)
  finalized : List NodeId

/-- Outcome of the search loop.  `stuck` models a run that would not
terminate (exhausted fuel or a broken predecessor chain); the theorems below
prove it unreachable in the verified scenarios. -/
inductive LoopResult (W : Type) where
  | found (path : List NodeId) (s : AStarState W)
  | noPath (s : AStarState W)
  | stuck (s : AStarState W)

/-- The final state carried by a loop outcome. -/
def LoopResult.state : LoopResult W → AStarState W
  | .found _ s => s
  | .noPath s => s
  | .stuck s => s

/-- Modelled from the spec: reconstruction of the missing `nx.astar_path`
call — walk predecessor links from the destination back to the origin
(the node with no predecessor), accumulating the path in order. -/
def walkPred (pred : List (NodeId × NodeId)) :
    Nat → NodeId → List NodeId → Option (List NodeId)
  | 0, _, _ => none
  | fuel + 1, cur, acc =>
    match lookup? pred cur with
    | some p => walkPred pred fuel p (cur :: acc)
    | none => some (cur :: acc)

/-- Record an improved tentative score for `v` via predecessor `u`: update
`gScore`, record the predecessor, and push `v` into the frontier at priority
`gScore[v] + heuristic(v, destination)`. -/
def pushImproved [LinearOrder W] [Add W] (h : NodeId → NodeId → W)
    (t : NodeId) (s : AStarState W) (v u : NodeId) (g' : W) : AStarState W :=
  { s with gscore := (v, g') :: s.gscore,
           pred := (v, u) :: s.pred,
           frontier := pushFrontier (g' + h v t) v s.frontier }

/-- Modelled from the spec: relaxation of one outgoing edge in the missing
`nx.astar_path` call.  An infinite-cost edge is skipped and never inserted
into the frontier; otherwise the tentative score `gScore[u] + cost` updates
`v` when it improves the previously known score (or `v` is unvisited). -/
def relaxEdge [LinearOrderedField W]
    (cost : NodeId → NodeId → EdgeData W → CostVal W)
    (h : NodeId → NodeId → W) (t : NodeId) (s : AStarState W)
    (e : Edge W) : AStarState W :=
  match cost e.src e.dst e.data with
  | .inf => s
  | .val c =>
    let g' := (lookup? s.gscore e.src).getD 0 + c
    match lookup? s.gscore e.dst with
    | none => pushImproved h t s e.dst e.src g'
    | some gv => if g' < gv then pushImproved h t s e.dst e.src g' else s

/-- Modelled from the spec: the main loop of the missing `nx.astar_path`
call.  Pop the lowest-priority node; return the reconstructed path when it is
the destination; skip it when already finalized; otherwise finalize it and
relax its outgoing edges.  An exhausted frontier is the `NoPathFound`
outcome.  Termination is by fuel, which the theorems prove sufficient. -/
def astarLoop [LinearOrderedField W]
    (cost : NodeId → NodeId → EdgeData W → CostVal W)
    (h : NodeId → NodeId → W) (t : NodeId) :
    Nat → AStarState W → LoopResult W
  | 0, s => .stuck s
  | fuel + 1, s =>
    match s.frontier with
    | [] => .noPath s
    | (_, u) :: rest =>
      if u = t then
        match walkPred s.pred (s.pred.length + s.finalized.length + 2) u [] with
        | some p => .found p s
        | none => .stuck s
      else if u ∈ s.finalized then
        astarLoop cost h t fuel { s with frontier := rest }
      else
        astarLoop cost h t fuel
          ((s.graph.outEdges u).foldl (relaxEdge cost h t)
            { s with frontier := rest, finalized := u :: s.finalized })

/-- Modelled from the spec: the initial search state — the frontier holds the
origin at priority `heuristic(origin, destination)` and `gScore[origin] = 0`. -/
def initState (G : Graph W) [Zero W] (h : NodeId → NodeId → W)
    (o t : NodeId) : AStarState W :=
  { graph := G, frontier := [(h o t, o)], gscore := [(o, 0)],
    pred := [], finalized := [] }

/-- The error outcomes of a search call.  `nodeNotFound` models the
`NodeNotFound` exception `nx.astar_path` raises when the origin or the
destination is absent (the spec's precondition failure); `outOfFuel` is the
modelling artifact for a non-terminating run, proven unreachable. -/
inductive SearchError where
  | nodeNotFound
  | outOfFuel
  deriving DecidableEq

/-- Modelled from the spec: the missing `nx.astar_path` call.  Origin or
destination absent from the graph is rejected before the search starts;
otherwise the loop runs with fuel `|edges| + 2`, which suffices because each
finalized node is never expanded again. -/
def astar [LinearOrderedField W]
    (cost : NodeId → NodeId → EdgeData W → CostVal W)
    (h : NodeId → NodeId → W) (o t : NodeId) (G : Graph W) :
    Except SearchError (LoopResult W) :=
  if o ∈ G.nodeIds ∧ t ∈ G.nodeIds then
    .ok (astarLoop cost h t (G.edges.length + 2) (initState G h o t))
  else .error .nodeNotFound

/-- Embedding of `wheelchairPath(origin, endpoint, G)` (GPS.py lines
183–190): run A* with `costWheelchair` as the weight and `euclidianDistNode`
as the heuristic; the `NetworkXNoPath` exception is caught and turned into
the empty list, while the `NodeNotFound` exception propagates to the caller
as an error. -/
noncomputable def wheelchairPath (origin endpoint : NodeId) (G : Graph ℝ) :
    Except SearchError (List NodeId) :=
  match astar costWheelchair (fun u v => euclidianDistNode u v G)
      origin endpoint G with
  | .error err => .error err
  | .ok (.found p _) => .ok p
  | .ok (.noPath _) => .ok []
  | .ok (.stuck _) => .error .outOfFuel

/-- Embedding of `pathFromCoords(x1, y1, x2, y2, G)` (GPS.py lines 133–138),
parameterized by the external nearest-node resolver `ox.distance.nearest_nodes`.
Exactly as in the source, both the origin and the destination are resolved
from the arguments `(y1, x1)`. -/
noncomputable def pathFromCoords (nearestNodes : Graph ℝ → ℝ → ℝ → NodeId)
    (x1 y1 x2 y2 : ℝ) (G : Graph ℝ) : Except SearchError (List NodeId) :=
  let origin := nearestNodes G y1 x1
  let destination := nearestNodes G y1 x1
  wheelchairPath origin destination G

/-- `n` is reachable from `o` through a chain of finite-cost edges. -/
def AccReach (G : Graph W) (cost : NodeId → NodeId → EdgeData W → CostVal W)
    (o n : NodeId) : Prop :=
  ∃ es, IsEdgePath G o n es ∧ ∀ e ∈ es, cost e.src e.dst e.data ≠ .inf

/-- Edges whose source has not yet been finalized; together with the frontier
size this bounds the remaining work of the loop. -/
def pendingCount (G : Graph W) (fin : List NodeId) : Nat :=
  (G.edges.filter (fun e => decide (e.src ∉ fin))).length

/-- Non-negative edge lengths, the graph-construction invariant of the spec. -/
def NonnegLengths (G : Graph W) [LE W] [Zero W] : Prop :=
  ∀ e ∈ G.edges, ∀ l, e.data.length = some l → 0 ≤ l

/-- The search succeeds and the returned node sequence is realized by an
accessible edge chain of minimum cost among all accessible chains between the
endpoints. -/
def ReturnsMinCostPath (G : Graph ℝ) (o t : NodeId) : Prop :=
  ∃ p c es, wheelchairPath o t G = .ok p ∧
    IsEdgePath G o t es ∧ nodesOf o es = p ∧
    pathCost costWheelchair es = .val c ∧
    ∀ es' c', IsEdgePath G o t es' →
      pathCost costWheelchair es' = .val c' → c ≤ c'

/-- Concrete two-node graph for the C7 witness. -/
def exampleGraphC7 : Graph ℝ :=
  { nodes := [(1, ⟨0, 0, none⟩), (2, ⟨3, 4, none⟩)],
    edges := [] }

/-- Concrete graph refuting unconditional admissibility: a single accessible
edge of length `1` between nodes that are `5` apart. -/
def exampleGraphC6c : Graph ℝ :=
  { nodes := [(1, ⟨0, 0, none⟩), (2, ⟨3, 4, none⟩)],
    edges := [⟨1, 2, ⟨some "yes", some 1⟩⟩] }

/-- Concrete unit-consistent graph for the C6 witness: the edge length `5`
equals the straight-line distance. -/
def exampleGraphC6w : Graph ℝ :=
  { nodes := [(1, ⟨0, 0, none⟩), (2, ⟨3, 4, none⟩)],
    edges := [⟨1, 2, ⟨some "yes", some 5⟩⟩] }

/-- Concrete one-node graph for the C5 witness. -/
def exampleGraphC5 : Graph ℝ :=
  { nodes := [(1, ⟨0, 0, none⟩)], edges := [] }

/-- Concrete graph for the C8 witness. -/
def exampleGraphC8 : Graph ℝ :=
  { nodes := [(7, ⟨1, 2, none⟩)], edges := [] }

/-- Concrete graph for the C9 witness. -/
def exampleGraphC9 : Graph ℝ :=
  { nodes := [(3, ⟨0, 0, none⟩)], edges := [] }

/-- Concrete disconnected graph for the C4 witness: two nodes, no edges. -/
def exampleGraphC4 : Graph ℝ :=
  { nodes := [(1, ⟨0, 0, none⟩), (2, ⟨1, 0, none⟩)], edges := [] }

/-- Concrete graph for the C1 witness: the only edge is not accessible. -/
def exampleGraphC1 : Graph ℝ :=
  { nodes := [(1, ⟨0, 0, none⟩), (2, ⟨1, 0, none⟩)],
    edges := [⟨1, 2, ⟨some "no", some 5⟩⟩] }

/-- Concrete graph refuting unconditional optimality: the direct accessible
edge `0 → 1` has length `10`, the two-hop accessible detour `0 → 2 → 1` has
total length `2`, but node `2` lies `100` coordinate units away, so the
(unit-inconsistent) Euclidean heuristic steers the search to the direct
edge. -/
def exampleGraphC3 : Graph ℝ :=
  { nodes := [(0, ⟨0, 0, none⟩), (1, ⟨0, 0, none⟩), (2, ⟨100, 0, none⟩)],
    edges := [⟨0, 1, ⟨some "yes", some 10⟩⟩,
              ⟨0, 2, ⟨some "yes", some 1⟩⟩,
              ⟨2, 1, ⟨some "yes", some 1⟩⟩] }

/-- Concrete unit-consistent graph for the amended C3 witness. -/
def exampleGraphC3w : Graph ℝ :=
  { nodes := [(1, ⟨0, 0, none⟩), (2, ⟨3, 4, none⟩)],
    edges := [⟨1, 2, ⟨some "yes", some 5⟩⟩] }

section SearchInvariants

variable {W : Type} [LinearOrderedField W]

/-- Cost of some accessible chain from the origin to `n`. -/
def PCost (G : Graph W) (cost : NodeId → NodeId → EdgeData W → CostVal W)
    (o n : NodeId) (c : W) : Prop :=
  ∃ es, IsEdgePath G o n es ∧ pathCost cost es = .val c

/-- One relaxed edge: the recorded score of its target is at most the score
of its source plus the edge cost. -/
def RelaxedAt (cost : NodeId → NodeId → EdgeData W → CostVal W)
    (s : AStarState W) (e : Edge W) : Prop :=
  ∀ ce, cost e.src e.dst e.data = .val ce →
    ∃ gu gw, lookup? s.gscore e.src = some gu ∧
      lookup? s.gscore e.dst = some gw ∧ gw ≤ gu + ce

/-- The core invariant of the search loop: the frontier is sorted and backed
by the score map, scores are realizable chain costs, finalized scores are
minimal, unfinalized scored nodes are covered by the frontier, and predecessor
links record accessible edges into strictly earlier finalized nodes. -/
structure CoreInv (G : Graph W)
    (cost : NodeId → NodeId → EdgeData W → CostVal W)
    (h : NodeId → NodeId → W) (o t : NodeId) (s : AStarState W) : Prop where
  graph_eq : s.graph = G
  sorted : s.frontier.Pairwise (fun a b => a.1 ≤ b.1)
  entries : ∀ pri m, (pri, m) ∈ s.frontier →
    ∃ gp gm, pri = gp + h m t ∧ lookup? s.gscore m = some gm ∧ gm ≤ gp
  gsound : ∀ n gn, lookup? s.gscore n = some gn → PCost G cost o n gn
  gorigin : lookup? s.gscore o = some 0
  fing : ∀ u ∈ s.finalized, ∃ gu, lookup? s.gscore u = some gu
  finopt : ∀ u ∈ s.finalized, ∀ gu, lookup? s.gscore u = some gu →
    ∀ c, PCost G cost o u c → gu ≤ c
  cover : ∀ n gn, lookup? s.gscore n = some gn → n ∉ s.finalized →
    ∃ pri, (pri, n) ∈ s.frontier ∧ pri ≤ gn + h n t
  ndfin : s.finalized.Nodup
  tnotfin : t ∉ s.finalized
  preddef : ∀ n gn, lookup? s.gscore n = some gn →
    n = o ∨ ∃ m, lookup? s.pred n = some m
  prednoto : lookup? s.pred o = none
  prededge : ∀ n m, lookup? s.pred n = some m →
    ∃ e ∈ G.edges, e.src = m ∧ e.dst = n ∧
      ∃ ce gn gm, cost e.src e.dst e.data = .val ce ∧
        lookup? s.gscore n = some gn ∧ lookup? s.gscore m = some gm ∧
        gn = gm + ce ∧ m ∈ s.finalized
  predorder : ∀ n m, lookup? s.pred n = some m →
    ∀ l1 l2, s.finalized = l1 ++ n :: l2 → m ∈ l2

/-- All edges leaving finalized nodes have been relaxed. -/
def FinRelax (G : Graph W) (cost : NodeId → NodeId → EdgeData W → CostVal W)
    (s : AStarState W) : Prop :=
  ∀ u ∈ s.finalized, ∀ e ∈ G.edges, e.src = u → RelaxedAt cost s e

/-- The full loop invariant. -/
def Inv (G : Graph W) (cost : NodeId → NodeId → EdgeData W → CostVal W)
    (h : NodeId → NodeId → W) (o t : NodeId) (s : AStarState W) : Prop :=
  CoreInv G cost h o t s ∧ FinRelax G cost s

end SearchInvariants

/-! ## Theorems -/

section CostFacts

variable {W : Type} [LinearOrderedField W]

theorem costWheelchair_of_accessible (u v : NodeId) (d : EdgeData W)
    (hw : d.wheelchair = some "yes") :
    costWheelchair u v d = .val (d.length.getD 1) := by
  simp [costWheelchair, hw]

theorem costWheelchair_of_not_accessible (u v : NodeId) (d : EdgeData W)
    (hw : d.wheelchair ≠ some "yes") :
    costWheelchair u v d = .inf := by
  simp [costWheelchair, hw]

theorem costWheelchair_eq_inf_iff (u v : NodeId) (d : EdgeData W) :
    costWheelchair u v d = .inf ↔ d.wheelchair ≠ some "yes" := by
  unfold costWheelchair
  split
  · simp_all
  · simp_all

end CostFacts

section ClaimC2

variable {W : Type} [LinearOrderedField W]

/-- C2: `costWheelchair` returns the edge's `length` when the `wheelchair`
attribute is exactly the accessible value `"yes"` (default `1` when `length`
is absent) and positive infinity otherwise; given non-negative lengths every
cost is a non-negative finite value or infinity, and the cost is infinite
exactly when the edge is not marked accessible. -/
theorem costWheelchair_spec (u v : NodeId) (d : EdgeData W) :
    (∀ l, d.length = some l → d.wheelchair = some "yes" →
      costWheelchair u v d = .val l) ∧
    (d.length = none → d.wheelchair = some "yes" →
      costWheelchair u v d = .val 1) ∧
    (d.wheelchair ≠ some "yes" → costWheelchair u v d = .inf) ∧
    ((∀ l, d.length = some l → 0 ≤ l) →
      costWheelchair u v d = .inf ∨
        ∃ c, costWheelchair u v d = .val c ∧ 0 ≤ c) ∧
    (costWheelchair u v d = .inf ↔ d.wheelchair ≠ some "yes") := by
  refine ⟨?_, ?_, ?_, ?_, costWheelchair_eq_inf_iff u v d⟩
  · intro l hl hw
    rw [costWheelchair_of_accessible u v d hw, hl]
    rfl
  · intro hl hw
    rw [costWheelchair_of_accessible u v d hw, hl]
    rfl
  · exact costWheelchair_of_not_accessible u v d
  · intro hnn
    by_cases hw : d.wheelchair = some "yes"
    · refine Or.inr ⟨d.length.getD 1, costWheelchair_of_accessible u v d hw, ?_⟩
      cases hl : d.length with
      | none => simp [hl]
      | some l => simpa [hl] using hnn l hl
    · exact Or.inl (costWheelchair_of_not_accessible u v d hw)

/-- Witness for C2 at concrete edge data over `ℚ`. -/
theorem costWheelchair_spec_witness :
    costWheelchair (W := ℚ) 1 2 ⟨some "yes", some 5⟩ = .val 5 ∧
    costWheelchair (W := ℚ) 1 2 ⟨some "yes", none⟩ = .val 1 ∧
    costWheelchair (W := ℚ) 1 2 ⟨some "no", some 5⟩ = .inf := by
  refine ⟨?_, ?_, ?_⟩
  · exact (costWheelchair_spec 1 2 ⟨some "yes", some 5⟩).1 5 rfl rfl
  · exact (costWheelchair_spec 1 2 ⟨some "yes", none⟩).2.1 rfl rfl
  · exact (costWheelchair_spec 1 2 ⟨some "no", some 5⟩).2.2.1 (by simp)

end ClaimC2

theorem euclidianDistNode_eq (G : Graph ℝ) {u v : NodeId} {a b : NodeData ℝ}
    (hu : G.findNode u = some a) (hv : G.findNode v = some b) :
    euclidianDistNode u v G = Real.sqrt ((a.x - b.x) ^ 2 + (a.y - b.y) ^ 2) := by
  simp [euclidianDistNode, hu, hv]

theorem euclidianDistNode_eq_dist (G : Graph ℝ) {u v : NodeId}
    {a b : NodeData ℝ} (hu : G.findNode u = some a) (hv : G.findNode v = some b) :
    euclidianDistNode u v G = dist a.pt b.pt := by
  rw [euclidianDistNode_eq G hu hv, Complex.dist_eq, Complex.abs_apply,
    Complex.normSq_apply]
  congr 1
  simp only [NodeData.pt, Complex.sub_re, Complex.sub_im]
  ring

theorem euclidianDistNode_nonneg (u v : NodeId) (G : Graph ℝ) :
    0 ≤ euclidianDistNode u v G := by
  unfold euclidianDistNode
  rcases G.findNode u with _ | a <;> rcases G.findNode v with _ | b
  · exact le_refl 0
  · exact le_refl 0
  · exact le_refl 0
  · exact Real.sqrt_nonneg _

theorem euclidianDistNode_self (u : NodeId) (G : Graph ℝ) :
    euclidianDistNode u u G = 0 := by
  unfold euclidianDistNode
  rcases G.findNode u with _ | a
  · rfl
  · simp

theorem euclidianDistNode_triangle (G : Graph ℝ) {u w v : NodeId}
    {a c b : NodeData ℝ} (hu : G.findNode u = some a)
    (hw : G.findNode w = some c) (hv : G.findNode v = some b) :
    euclidianDistNode u v G ≤
      euclidianDistNode u w G + euclidianDistNode w v G := by
  rw [euclidianDistNode_eq_dist G hu hv, euclidianDistNode_eq_dist G hu hw,
    euclidianDistNode_eq_dist G hw hv]
  exact dist_triangle _ _ _

theorem findNode_isSome_of_mem {G : Graph W} {u : NodeId}
    (h : u ∈ G.nodeIds) : ∃ a, G.findNode u = some a := by
  rcases List.mem_map.mp h with ⟨p, hp, hfst⟩
  have : (G.nodes.find? (fun q => q.1 == u)).isSome := by
    rw [List.find?_isSome]
    exact ⟨p, hp, by simp [hfst]⟩
  rcases Option.isSome_iff_exists.mp this with ⟨q, hq⟩
  exact ⟨q.2, by simp [Graph.findNode, hq]⟩

section ClaimC7

/-- C7: for nodes present in the graph, `euclidianDistNode` returns exactly
the straight-line Euclidean distance `sqrt((x_u - x_v)^2 + (y_u - y_v)^2)`
between the nodes' stored positions — equivalently, the metric distance
between the corresponding points of the Euclidean plane.  The embedding is a
pure function of the graph, so the call has no side effects. -/
theorem euclidianDistNode_spec (G : Graph ℝ) (u v : NodeId)
    (a b : NodeData ℝ) (hu : G.findNode u = some a)
    (hv : G.findNode v = some b) :
    euclidianDistNode u v G = Real.sqrt ((a.x - b.x) ^ 2 + (a.y - b.y) ^ 2) ∧
    euclidianDistNode u v G = dist a.pt b.pt :=
  ⟨euclidianDistNode_eq G hu hv, euclidianDistNode_eq_dist G hu hv⟩

/-- Witness for C7: instantiating the theorem on a concrete graph. -/
theorem euclidianDistNode_spec_witness :
    euclidianDistNode 1 2 exampleGraphC7 =
      Real.sqrt ((0 - 3 : ℝ) ^ 2 + (0 - 4 : ℝ) ^ 2) :=
  (euclidianDistNode_spec exampleGraphC7 1 2 ⟨0, 0, none⟩ ⟨3, 4, none⟩
    rfl rfl).1

end ClaimC7

/-! ## Admissibility of the heuristic -/

theorem pathCost_nil [Add W] [Zero W]
    (cost : NodeId → NodeId → EdgeData W → CostVal W) :
    pathCost cost [] = .val 0 :=
  rfl

theorem pathCost_cons [Add W] [Zero W]
    (cost : NodeId → NodeId → EdgeData W → CostVal W) (e : Edge W)
    (es : List (Edge W)) :
    pathCost cost (e :: es) =
      (cost e.src e.dst e.data).add (pathCost cost es) :=
  rfl

theorem CostVal.add_eq_val {W : Type} [Add W] {x y : CostVal W} {c : W}
    (h : x.add y = .val c) :
    ∃ a b, x = .val a ∧ y = .val b ∧ c = a + b := by
  cases x with
  | inf => simp [CostVal.add] at h
  | val a =>
    cases y with
    | inf => simp [CostVal.add] at h
    | val b =>
      refine ⟨a, b, rfl, rfl, ?_⟩
      have h' : CostVal.val (a + b) = CostVal.val c := h
      injection h' with h''
      exact h''.symm

theorem euclidianDistNode_of_right_none (u v : NodeId) (G : Graph ℝ)
    (hv : G.findNode v = none) : euclidianDistNode u v G = 0 := by
  unfold euclidianDistNode
  rcases G.findNode u with _ | a <;> simp [hv]

/-- Under unit consistency, every finite path cost is non-negative. -/
theorem pathCost_nonneg_of_unitConsistent {G : Graph ℝ}
    (huc : UnitConsistent G) :
    ∀ es (u v : NodeId) c, IsEdgePath G u v es →
      pathCost costWheelchair es = .val c → 0 ≤ c := by
  intro es
  induction es with
  | nil =>
    intro u v c _ hc
    rw [pathCost_nil] at hc
    injection hc with h
    rw [← h]
  | cons e es ih =>
    intro u v c hp hc
    obtain ⟨hmem, _, hrest⟩ := hp
    rw [pathCost_cons] at hc
    obtain ⟨ce, cs, hce, hcs, rfl⟩ := CostVal.add_eq_val hc
    have h1 : 0 ≤ ce :=
      le_trans (euclidianDistNode_nonneg e.src e.dst G) (huc e hmem ce hce)
    have h2 : 0 ≤ cs := ih e.dst v cs hrest hcs
    linarith

/-- Amended claim C6: when every accessible edge is at least as long as the
straight-line distance between its endpoints (unit consistency) and the graph
is well formed, the Euclidean heuristic never overestimates the cost of any
accessible path, hence is admissible. -/
theorem euclidianDistNode_admissible_of_unitConsistent (G : Graph ℝ)
    (hwf : GraphWF G) (huc : UnitConsistent G) (u v : NodeId)
    (hex : ∃ es c, IsEdgePath G u v es ∧ pathCost costWheelchair es = .val c) :
    HeuristicAdmissibleAt G u v := by
  clear hex
  intro es
  induction es generalizing u with
  | nil =>
    intro c hp hc
    rw [pathCost_nil] at hc
    injection hc with h
    cases hp
    rw [euclidianDistNode_self, ← h]
  | cons e es ih =>
    intro c hp hc
    obtain ⟨hmem, hsrc, hrest⟩ := hp
    rw [pathCost_cons] at hc
    obtain ⟨ce, cs, hce, hcs, rfl⟩ := CostVal.add_eq_val hc
    have hle1 : euclidianDistNode u e.dst G ≤ ce := by
      rw [← hsrc]; exact huc e hmem ce hce
    have hle2 : euclidianDistNode e.dst v G ≤ cs := ih e.dst cs hrest hcs
    rcases hv : G.findNode v with _ | b
    · rw [euclidianDistNode_of_right_none u v G hv]
      have h1 : 0 ≤ ce :=
        le_trans (euclidianDistNode_nonneg e.src e.dst G) (huc e hmem ce hce)
      have h2 : 0 ≤ cs :=
        pathCost_nonneg_of_unitConsistent huc es e.dst v cs hrest hcs
      linarith
    · have hum : u ∈ G.nodeIds := by rw [← hsrc]; exact (hwf e hmem).1
      obtain ⟨a, ha⟩ := findNode_isSome_of_mem (G := G) (u := u) hum
      obtain ⟨w, hw⟩ :=
        findNode_isSome_of_mem (G := G) (u := e.dst) (hwf e hmem).2
      have htri :=
        euclidianDistNode_triangle G (u := u) (w := e.dst) (v := v) ha hw hv
      linarith

section ClaimC6

theorem sqrt_three_four : Real.sqrt ((0 - 3 : ℝ) ^ 2 + (0 - 4 : ℝ) ^ 2) = 5 := by
  rw [show (0 - 3 : ℝ) ^ 2 + (0 - 4 : ℝ) ^ 2 = 5 ^ 2 by norm_num,
    Real.sqrt_sq (by norm_num : (0 : ℝ) ≤ 5)]

theorem euclid_exampleGraphC6c : euclidianDistNode 1 2 exampleGraphC6c = 5 := by
  rw [euclidianDistNode_eq exampleGraphC6c (u := 1) (v := 2)
    (a := ⟨0, 0, none⟩) (b := ⟨3, 4, none⟩) rfl rfl]
  exact sqrt_three_four

/-- Counterexample to claim C6 as stated: in `exampleGraphC6c` a finite-cost
accessible path from `1` to `2` exists (the single edge, cost `1`), yet the
heuristic value `5` exceeds that path's cost, so the heuristic overestimates
the minimum accessible-path cost. -/
theorem euclidianDistNode_not_admissible_example :
    (∃ es c, IsEdgePath exampleGraphC6c 1 2 es ∧
      pathCost costWheelchair es = .val c) ∧
    ¬ HeuristicAdmissibleAt exampleGraphC6c 1 2 := by
  have hpath : IsEdgePath exampleGraphC6c 1 2
      [⟨1, 2, ⟨some "yes", some 1⟩⟩] := by
    refine ⟨by simp [exampleGraphC6c], rfl, rfl⟩
  have hcost : pathCost costWheelchair
      [(⟨1, 2, ⟨some "yes", some 1⟩⟩ : Edge ℝ)] = .val 1 := by
    simp [pathCost, costWheelchair, CostVal.add]
  refine ⟨⟨_, 1, hpath, hcost⟩, fun h => ?_⟩
  have := h _ 1 hpath hcost
  rw [euclid_exampleGraphC6c] at this
  linarith

theorem euclid_exampleGraphC6w : euclidianDistNode 1 2 exampleGraphC6w = 5 := by
  rw [euclidianDistNode_eq exampleGraphC6w (u := 1) (v := 2)
    (a := ⟨0, 0, none⟩) (b := ⟨3, 4, none⟩) rfl rfl]
  exact sqrt_three_four

/-- Witness for the amended claim C6 on a concrete unit-consistent graph. -/
theorem euclidianDistNode_admissible_witness :
    HeuristicAdmissibleAt exampleGraphC6w 1 2 := by
  have hwf : GraphWF exampleGraphC6w := by
    intro e he
    simp only [exampleGraphC6w, List.mem_singleton] at he
    subst he
    refine ⟨by simp [Graph.nodeIds, exampleGraphC6w], by simp [Graph.nodeIds, exampleGraphC6w]⟩
  have huc : UnitConsistent exampleGraphC6w := by
    intro e he c hc
    simp only [exampleGraphC6w, List.mem_singleton] at he
    subst he
    have hval : CostVal.val (5 : ℝ) = CostVal.val c := by
      rw [← hc]; simp [costWheelchair]
    injection hval with h
    show euclidianDistNode 1 2 exampleGraphC6w ≤ c
    rw [euclid_exampleGraphC6w, ← h]
  exact euclidianDistNode_admissible_of_unitConsistent exampleGraphC6w hwf huc 1 2
    ⟨[⟨1, 2, ⟨some "yes", some 5⟩⟩], 5,
      ⟨by simp [exampleGraphC6w], rfl, rfl⟩,
      by simp [pathCost, costWheelchair, CostVal.add]⟩

end ClaimC6

/-! ## The graph is read-only during a search -/

section ReadOnly

variable {W : Type} [LinearOrderedField W]

variable {cost : NodeId → NodeId → EdgeData W → CostVal W}

variable {h : NodeId → NodeId → W}

theorem relaxEdge_graph (t : NodeId) (s : AStarState W) (e : Edge W) :
    (relaxEdge cost h t s e).graph = s.graph := by
  unfold relaxEdge pushImproved
  rcases cost e.src e.dst e.data with c | _
  · rcases lookup? s.gscore e.dst with _ | gv
    · rfl
    · dsimp only
      split
      · rfl
      · rfl
  · rfl

theorem foldl_relaxEdge_graph (t : NodeId) :
    ∀ (es : List (Edge W)) (s : AStarState W),
      (es.foldl (relaxEdge cost h t) s).graph = s.graph := by
  intro es
  induction es with
  | nil => intro s; rfl
  | cons e es ih =>
    intro s
    rw [List.foldl_cons, ih, relaxEdge_graph]

theorem astarLoop_graph (t : NodeId) :
    ∀ (fuel : Nat) (s : AStarState W),
      (astarLoop cost h t fuel s).state.graph = s.graph := by
  intro fuel
  induction fuel with
  | zero => intro s; rfl
  | succ fuel ih =>
    intro s
    rw [astarLoop]
    rcases hf : s.frontier with _ | ⟨⟨pri, u⟩, rest⟩
    · rfl
    · dsimp only
      split
      · split
        · rfl
        · rfl
      · split
        · exact ih _
        · rw [ih, foldl_relaxEdge_graph]

end ReadOnly

section ClaimC10

/-- C10: a search invocation leaves the graph unchanged — the loop's final
state carries the same graph it started from, and at the `astar` entry point
the graph of any produced final state equals the input graph.  The cost and
heuristic functions are pure by construction, so the node set, edge set, and
all attributes after the search equal those before it. -/
theorem search_graph_readonly {W : Type} [LinearOrderedField W]
    (cost : NodeId → NodeId → EdgeData W → CostVal W)
    (h : NodeId → NodeId → W) (o t : NodeId) (G : Graph W)
    (fuel : Nat) (s : AStarState W) :
    (astarLoop cost h t fuel s).state.graph = s.graph ∧
    (astar cost h o t G).map (fun r => r.state.graph) =
      (astar cost h o t G).map (fun _ => G) := by
  refine ⟨astarLoop_graph t fuel s, ?_⟩
  unfold astar
  split
  · rw [Except.map, Except.map, astarLoop_graph]
    rfl
  · rfl

end ClaimC10

/-! ## Precondition failure: origin or destination absent -/

theorem astar_nodeNotFound {W : Type} [LinearOrderedField W]
    (cost : NodeId → NodeId → EdgeData W → CostVal W)
    (h : NodeId → NodeId → W) {o t : NodeId} {G : Graph W}
    (habs : ¬(o ∈ G.nodeIds ∧ t ∈ G.nodeIds)) :
    astar cost h o t G = .error .nodeNotFound := by
  simp [astar, habs]

section ClaimC5

/-- C5: when the origin or the destination identifier is absent from the
graph's node set, `wheelchairPath` fails with the precondition failure
`nodeNotFound` — an outcome distinct from the `NoPathFound` result `.ok []`,
so a caller can distinguish bad input from a valid-but-unreachable query. -/
theorem wheelchairPath_nodeNotFound (origin endpoint : NodeId) (G : Graph ℝ)
    (habs : origin ∉ G.nodeIds ∨ endpoint ∉ G.nodeIds) :
    wheelchairPath origin endpoint G = .error .nodeNotFound ∧
    wheelchairPath origin endpoint G ≠ .ok [] := by
  have h1 : wheelchairPath origin endpoint G = .error .nodeNotFound := by
    unfold wheelchairPath
    rw [astar_nodeNotFound _ _ (by tauto)]
  exact ⟨h1, by rw [h1]; exact fun hcon => Except.noConfusion hcon⟩

/-- Witness for C5: querying a node id absent from the concrete graph. -/
theorem wheelchairPath_nodeNotFound_witness :
    wheelchairPath 2 1 exampleGraphC5 = .error .nodeNotFound := by
  exact (wheelchairPath_nodeNotFound 2 1 exampleGraphC5
    (Or.inl (by simp [Graph.nodeIds, exampleGraphC5]))).1

end ClaimC5

/-! ## Origin equals destination -/

theorem astar_self {W : Type} [LinearOrderedField W]
    (cost : NodeId → NodeId → EdgeData W → CostVal W)
    (h : NodeId → NodeId → W) {n : NodeId} {G : Graph W}
    (hn : n ∈ G.nodeIds) :
    astar cost h n n G = .ok (.found [n] (initState G h n n)) := by
  unfold astar
  rw [if_pos ⟨hn, hn⟩]
  show Except.ok (astarLoop cost h n (G.edges.length + 1 + 1)
    (initState G h n n)) = _
  rw [astarLoop]
  simp [initState, walkPred, lookup?]

theorem wheelchairPath_self_eq {n : NodeId} {G : Graph ℝ}
    (hn : n ∈ G.nodeIds) : wheelchairPath n n G = .ok [n] := by
  unfold wheelchairPath
  rw [astar_self _ _ hn]

section ClaimC8

/-- C8: calling the search with origin and destination both equal to a node
`n` present in the graph returns the single-node path `[n]`, whose total cost
is the cost of the empty edge chain, `0`. -/
theorem wheelchairPath_self (n : NodeId) (G : Graph ℝ)
    (hn : n ∈ G.nodeIds) :
    wheelchairPath n n G = .ok [n] ∧
    pathCost (W := ℝ) costWheelchair [] = .val 0 :=
  ⟨wheelchairPath_self_eq hn, rfl⟩

/-- Witness for C8 on a concrete one-node graph. -/
theorem wheelchairPath_self_witness :
    wheelchairPath 7 7 exampleGraphC8 = .ok [7] :=
  (wheelchairPath_self 7 exampleGraphC8
    (by simp [Graph.nodeIds, exampleGraphC8])).1

end ClaimC8

section ClaimC9

/-- C9: `pathFromCoords` resolves both endpoints with the same arguments
`(y1, x1)`, so its result never depends on `x2`, `y2`; it always queries the
search with origin equal to destination, and whenever the resolved node is in
the graph the returned path is the single-node path for that nearest node
rather than a route between the two supplied coordinate pairs. -/
theorem pathFromCoords_spec (nearestNodes : Graph ℝ → ℝ → ℝ → NodeId)
    (x1 y1 : ℝ) (G : Graph ℝ) :
    (∀ x2 y2 x2' y2', pathFromCoords nearestNodes x1 y1 x2 y2 G =
      pathFromCoords nearestNodes x1 y1 x2' y2' G) ∧
    (∀ x2 y2, pathFromCoords nearestNodes x1 y1 x2 y2 G =
      wheelchairPath (nearestNodes G y1 x1) (nearestNodes G y1 x1) G) ∧
    (∀ x2 y2, nearestNodes G y1 x1 ∈ G.nodeIds →
      pathFromCoords nearestNodes x1 y1 x2 y2 G =
        .ok [nearestNodes G y1 x1]) := by
  refine ⟨fun _ _ _ _ => rfl, fun _ _ => rfl, fun _ _ hn => ?_⟩
  exact wheelchairPath_self_eq hn

/-- Witness for C9: a resolver returning node `3` of the concrete graph. -/
theorem pathFromCoords_spec_witness :
    pathFromCoords (fun _ _ _ => 3) 0 0 10 20 exampleGraphC9 = .ok [3] :=
  (pathFromCoords_spec (fun _ _ _ => 3) 0 0 exampleGraphC9).2.2 10 20
    (by simp [Graph.nodeIds, exampleGraphC9])

end ClaimC9

/-! ## No accessible path: the search returns the empty result -/

theorem AccReach.refl (G : Graph W) (cost : NodeId → NodeId → EdgeData W → CostVal W)
    (o : NodeId) : AccReach G cost o o :=
  ⟨[], rfl, by simp⟩

theorem IsEdgePath.append_single {G : Graph W} {o u : NodeId} {es : List (Edge W)}
    (hp : IsEdgePath G o u es) {e : Edge W} (he : e ∈ G.edges) (hsrc : e.src = u) :
    IsEdgePath G o e.dst (es ++ [e]) := by
  induction es generalizing o with
  | nil =>
    cases hp
    exact ⟨he, hsrc, rfl⟩
  | cons f es ih =>
    obtain ⟨hf, hfsrc, hrest⟩ := hp
    exact ⟨hf, hfsrc, ih hrest⟩

theorem AccReach.step {G : Graph W}
    {cost : NodeId → NodeId → EdgeData W → CostVal W} {o u : NodeId}
    (hr : AccReach G cost o u) {e : Edge W} (he : e ∈ G.edges)
    (hsrc : e.src = u) (hc : cost e.src e.dst e.data ≠ .inf) :
    AccReach G cost o e.dst := by
  obtain ⟨es, hp, hacc⟩ := hr
  refine ⟨es ++ [e], hp.append_single he hsrc, ?_⟩
  intro f hf
  rcases List.mem_append.mp hf with hf | hf
  · exact hacc f hf
  · rw [List.mem_singleton.mp hf]
    exact hc

section FrontierLemmas

variable {W : Type} [LinearOrderedField W]

variable {cost : NodeId → NodeId → EdgeData W → CostVal W}

variable {h : NodeId → NodeId → W}

theorem pushFrontier_length (pri : W) (n : NodeId) :
    ∀ l : List (W × NodeId), (pushFrontier pri n l).length = l.length + 1 := by
  intro l
  induction l with
  | nil => rfl
  | cons e es ih =>
    rw [pushFrontier]
    split
    · rfl
    · simp [ih]

theorem mem_pushFrontier {pri : W} {n : NodeId} {x : W × NodeId} :
    ∀ {l : List (W × NodeId)}, x ∈ pushFrontier pri n l →
      x = (pri, n) ∨ x ∈ l := by
  intro l
  induction l with
  | nil => intro hx; simpa [pushFrontier] using hx
  | cons e es ih =>
    intro hx
    rw [pushFrontier] at hx
    split at hx
    · rcases List.mem_cons.mp hx with hx | hx
      · exact Or.inl hx
      · exact Or.inr hx
    · rcases List.mem_cons.mp hx with hx | hx
      · exact Or.inr (List.mem_cons.mpr (Or.inl hx))
      · rcases ih hx with hx | hx
        · exact Or.inl hx
        · exact Or.inr (List.mem_cons.mpr (Or.inr hx))

/-- Case analysis for a single relaxation: either the state is unchanged, or
the edge has finite cost and the state is an improvement push. -/
theorem relaxEdge_cases (t : NodeId) (s : AStarState W) (e : Edge W) :
    relaxEdge cost h t s e = s ∨
    (cost e.src e.dst e.data ≠ .inf ∧
      ∃ g', relaxEdge cost h t s e = pushImproved h t s e.dst e.src g') := by
  unfold relaxEdge
  cases hc : cost e.src e.dst e.data with
  | inf => exact Or.inl rfl
  | val c =>
    cases hl : lookup? s.gscore e.dst with
    | none => exact Or.inr ⟨by simp, _, rfl⟩
    | some gv =>
      dsimp only
      split
      · exact Or.inr ⟨by simp, _, rfl⟩
      · exact Or.inl rfl

theorem relaxEdge_finalized (t : NodeId) (s : AStarState W) (e : Edge W) :
    (relaxEdge cost h t s e).finalized = s.finalized := by
  rcases @relaxEdge_cases W _ cost h t s e with heq | ⟨_, g', heq⟩
  · rw [heq]
  · rw [heq]; rfl

theorem relaxEdge_frontier_length (t : NodeId) (s : AStarState W) (e : Edge W) :
    (relaxEdge cost h t s e).frontier.length ≤ s.frontier.length + 1 := by
  rcases @relaxEdge_cases W _ cost h t s e with heq | ⟨_, g', heq⟩
  · rw [heq]; exact Nat.le_succ _
  · rw [heq]
    show (pushFrontier _ _ s.frontier).length ≤ _
    rw [pushFrontier_length]

theorem relaxEdge_frontier_mem (t : NodeId) (s : AStarState W) (e : Edge W)
    {x : W × NodeId} (hx : x ∈ (relaxEdge cost h t s e).frontier) :
    x ∈ s.frontier ∨ (x.2 = e.dst ∧ cost e.src e.dst e.data ≠ .inf) := by
  rcases @relaxEdge_cases W _ cost h t s e with heq | ⟨hc, g', heq⟩
  · rw [heq] at hx; exact Or.inl hx
  · rw [heq] at hx
    rcases mem_pushFrontier hx with hx | hx
    · exact Or.inr ⟨by rw [hx], hc⟩
    · exact Or.inl hx

theorem foldl_relax_finalized (t : NodeId) :
    ∀ (es : List (Edge W)) (s : AStarState W),
      (es.foldl (relaxEdge cost h t) s).finalized = s.finalized := by
  intro es
  induction es with
  | nil => intro s; rfl
  | cons e es ih =>
    intro s
    rw [List.foldl_cons, ih, relaxEdge_finalized]

theorem foldl_relax_frontier_length (t : NodeId) :
    ∀ (es : List (Edge W)) (s : AStarState W),
      (es.foldl (relaxEdge cost h t) s).frontier.length ≤
        s.frontier.length + es.length := by
  intro es
  induction es with
  | nil => intro s; exact Nat.le_refl _
  | cons e es ih =>
    intro s
    rw [List.foldl_cons]
    calc ((es.foldl (relaxEdge cost h t) (relaxEdge cost h t s e)).frontier).length
        ≤ (relaxEdge cost h t s e).frontier.length + es.length := ih _
      _ ≤ s.frontier.length + 1 + es.length := by
          exact Nat.add_le_add_right (relaxEdge_frontier_length t s e) _
      _ = s.frontier.length + (es.length + 1) := by omega
      _ = s.frontier.length + (e :: es).length := by simp

theorem foldl_relax_frontier_mem (t : NodeId) :
    ∀ (es : List (Edge W)) (s : AStarState W) {x : W × NodeId},
      x ∈ (es.foldl (relaxEdge cost h t) s).frontier →
        x ∈ s.frontier ∨
          ∃ e ∈ es, x.2 = e.dst ∧ cost e.src e.dst e.data ≠ .inf := by
  intro es
  induction es with
  | nil => intro s x hx; exact Or.inl hx
  | cons e es ih =>
    intro s x hx
    rw [List.foldl_cons] at hx
    rcases ih _ hx with hx | ⟨f, hf, hfd⟩
    · rcases relaxEdge_frontier_mem t s e hx with hx | hx
      · exact Or.inl hx
      · exact Or.inr ⟨e, List.mem_cons_self e es, hx⟩
    · exact Or.inr ⟨f, List.mem_cons.mpr (Or.inr hf), hfd⟩

end FrontierLemmas

theorem pendingCount_le (G : Graph W) (fin : List NodeId) :
    pendingCount G fin ≤ G.edges.length :=
  List.length_filter_le _ _

theorem outEdges_mem {G : Graph W} {u : NodeId} {e : Edge W}
    (he : e ∈ G.outEdges u) : e ∈ G.edges ∧ e.src = u := by
  have := List.mem_filter.mp he
  exact ⟨this.1, by simpa using this.2⟩

theorem pendingCount_cons {G : Graph W} {fin : List NodeId} {u : NodeId}
    (hu : u ∉ fin) :
    pendingCount G (u :: fin) + (G.outEdges u).length = pendingCount G fin := by
  unfold pendingCount Graph.outEdges
  generalize G.edges = l
  induction l with
  | nil => rfl
  | cons e l ih =>
    simp only [List.filter_cons]
    by_cases he : e.src = u
    · have h2 : e.src ∉ fin := he ▸ hu
      rw [if_neg (by simp [he]), if_pos (by simp [he]), if_pos (by simp [h2])]
      simp only [List.length_cons]
      omega
    · by_cases hf : e.src ∈ fin
      · rw [if_neg (by simp [hf]), if_neg (by simp [he]), if_neg (by simp [hf])]
        exact ih
      · rw [if_pos (by simp [he, hf]), if_neg (by simp [he]),
          if_pos (by simp [hf])]
        simp only [List.length_cons]
        omega

section Unreachable

variable {W : Type} [LinearOrderedField W]

variable {cost : NodeId → NodeId → EdgeData W → CostVal W}

variable {h : NodeId → NodeId → W}

/-- Master lemma: when the destination is not reachable through finite-cost
edges and every frontier node is so reachable from the origin, the loop (with
sufficient fuel) exhausts the frontier and reports `noPath`. -/
theorem astarLoop_noPath {G : Graph W} {o t : NodeId}
    (hnr : ¬ AccReach G cost o t) :
    ∀ (fuel : Nat) (s : AStarState W), s.graph = G →
      s.frontier.length + pendingCount G s.finalized < fuel →
      (∀ pri n, (pri, n) ∈ s.frontier → AccReach G cost o n) →
      ∃ s', astarLoop cost h t fuel s = .noPath s' := by
  intro fuel
  induction fuel with
  | zero => intro s _ hlt _; omega
  | succ fuel ih =>
    intro s hG hlt hfr
    rw [astarLoop]
    rcases hf : s.frontier with _ | ⟨⟨pri, u⟩, rest⟩
    · exact ⟨s, rfl⟩
    · have hu : AccReach G cost o u :=
        hfr pri u (by rw [hf]; exact List.mem_cons_self _ _)
      have hut : ¬ u = t := fun hcon => hnr (hcon ▸ hu)
      dsimp only
      rw [if_neg hut]
      by_cases hfin : u ∈ s.finalized
      · rw [if_pos hfin]
        refine ih { s with frontier := rest } hG ?_ ?_
        · have : s.frontier.length = rest.length + 1 := by rw [hf]; rfl
          simp only []
          omega
        · intro pri' n' hn'
          exact hfr pri' n' (by rw [hf]; exact List.mem_cons.mpr (Or.inr hn'))
      · rw [if_neg hfin]
        set s1 : AStarState W :=
          { s with frontier := rest, finalized := u :: s.finalized } with hs1
        have hg1 : ((s.graph.outEdges u).foldl (relaxEdge cost h t) s1).graph
            = G := by
          rw [foldl_relaxEdge_graph]
          exact hG
        refine ih _ hg1 ?_ ?_
        · have hfin1 : ((s.graph.outEdges u).foldl (relaxEdge cost h t)
              s1).finalized = u :: s.finalized := by
            rw [foldl_relax_finalized]
          rw [hfin1]
          have hlen := @foldl_relax_frontier_length W _ cost h t
            (s.graph.outEdges u) s1
          have houtlen : (s.graph.outEdges u).length =
              (G.outEdges u).length := by rw [hG]
          have hs1f : s1.frontier.length = rest.length := rfl
          have hpc := pendingCount_cons (G := G) hfin
          have hsf : s.frontier.length = rest.length + 1 := by rw [hf]; rfl
          omega
        · intro pri' n' hn'
          rcases foldl_relax_frontier_mem t (s.graph.outEdges u) s1 hn' with
            hn' | ⟨e, he, hdst, hc⟩
          · exact hfr pri' n' (by rw [hf]; exact List.mem_cons.mpr (Or.inr hn'))
          · rw [hG] at he
            obtain ⟨heG, hesrc⟩ := outEdges_mem he
            have hstep := hu.step heG hesrc hc
            have hdst' : n' = e.dst := hdst
            rw [hdst']
            exact hstep

/-- Shared corollary: `wheelchairPath` returns the empty path whenever the
destination is not reachable from the origin through finite-cost edges. -/
theorem wheelchairPath_empty_of_unreachable {origin endpoint : NodeId}
    {G : Graph ℝ} (ho : origin ∈ G.nodeIds) (he : endpoint ∈ G.nodeIds)
    (hnr : ¬ AccReach G costWheelchair origin endpoint) :
    wheelchairPath origin endpoint G = .ok [] := by
  unfold wheelchairPath
  unfold astar
  rw [if_pos ⟨ho, he⟩]
  obtain ⟨s', hs'⟩ := astarLoop_noPath (h := fun u v => euclidianDistNode u v G)
    hnr (G.edges.length + 2) (initState G (fun u v => euclidianDistNode u v G)
      origin endpoint) rfl
    (by
      have h1 : pendingCount G ([] : List NodeId) ≤ G.edges.length :=
        pendingCount_le G []
      show 1 + pendingCount G ([] : List NodeId) < G.edges.length + 2
      omega)
    (by
      intro pri n hn
      simp only [initState, List.mem_singleton, Prod.mk.injEq] at hn
      rw [hn.2]
      exact AccReach.refl G costWheelchair origin)
  rw [hs']

end Unreachable

section ClaimC4

/-- C4: when no contiguous chain of confirmed-accessible (finite-cost) edges
connects origin to destination — including the disconnected-component case —
the search returns the empty sequence as a normal result and signals no
error. -/
theorem wheelchairPath_noPath (origin endpoint : NodeId) (G : Graph ℝ)
    (ho : origin ∈ G.nodeIds) (he : endpoint ∈ G.nodeIds)
    (hnr : ¬ AccReach G costWheelchair origin endpoint) :
    wheelchairPath origin endpoint G = .ok [] ∧
    ∀ err, wheelchairPath origin endpoint G ≠ .error err := by
  have h1 := wheelchairPath_empty_of_unreachable ho he hnr
  exact ⟨h1, fun err hcon => by rw [h1] at hcon; exact Except.noConfusion hcon⟩

/-- Witness for C4: the destination lies in a disconnected component. -/
theorem wheelchairPath_noPath_witness :
    wheelchairPath 1 2 exampleGraphC4 = .ok [] := by
  refine (wheelchairPath_noPath 1 2 exampleGraphC4
    (by simp [Graph.nodeIds, exampleGraphC4])
    (by simp [Graph.nodeIds, exampleGraphC4]) ?_).1
  rintro ⟨es, hp, -⟩
  cases es with
  | nil =>
    have h12 : (1 : NodeId) = 2 := hp
    exact absurd h12 (by decide)
  | cons e es => exact absurd hp.1 (by simp [exampleGraphC4])

end ClaimC4

section ClaimC1

/-- C1: when every edge chain from `u` to `v` uses at least one edge whose
`wheelchair` attribute is not exactly accessible, the search returns the
`NoPathFound` outcome — the empty sequence.  (Infinite-cost edges are never
inserted into the frontier, so such a destination is never reached.) -/
theorem wheelchairPath_all_paths_blocked (u v : NodeId) (G : Graph ℝ)
    (hu : u ∈ G.nodeIds) (hv : v ∈ G.nodeIds)
    (hall : ∀ es, IsEdgePath G u v es →
      ∃ e ∈ es, e.data.wheelchair ≠ some "yes") :
    wheelchairPath u v G = .ok [] := by
  refine wheelchairPath_empty_of_unreachable hu hv ?_
  rintro ⟨es, hp, hacc⟩
  obtain ⟨e, hmem, hw⟩ := hall es hp
  exact hacc e hmem (costWheelchair_of_not_accessible e.src e.dst e.data hw)

/-- Witness for C1: every chain from `1` to `2` crosses the inaccessible
edge. -/
theorem wheelchairPath_all_paths_blocked_witness :
    wheelchairPath 1 2 exampleGraphC1 = .ok [] := by
  refine wheelchairPath_all_paths_blocked 1 2 exampleGraphC1
    (by simp [Graph.nodeIds, exampleGraphC1])
    (by simp [Graph.nodeIds, exampleGraphC1]) ?_
  intro es hp
  cases es with
  | nil =>
    have h12 : (1 : NodeId) = 2 := hp
    exact absurd h12 (by decide)
  | cons e es =>
    refine ⟨e, List.mem_cons_self e es, ?_⟩
    have he : e ∈ exampleGraphC1.edges := hp.1
    simp only [exampleGraphC1, List.mem_singleton] at he
    subst he
    decide

end ClaimC1

/-! ## Optimality of the returned path -/

section ClaimC3Counterexample

theorem euclid_exampleC3_21 : euclidianDistNode 2 1 exampleGraphC3 = 100 := by
  rw [euclidianDistNode_eq exampleGraphC3 (u := 2) (v := 1)
    (a := ⟨100, 0, none⟩) (b := ⟨0, 0, none⟩) rfl rfl]
  rw [show ((100 : ℝ) - 0) ^ 2 + (0 - 0) ^ 2 = 100 ^ 2 by norm_num,
    Real.sqrt_sq (by norm_num : (0 : ℝ) ≤ 100)]

theorem exampleGraphC3_edges_len : exampleGraphC3.edges.length = 3 := rfl

theorem exampleGraphC3_out0 : exampleGraphC3.outEdges 0 =
    [⟨0, 1, ⟨some "yes", some 10⟩⟩, ⟨0, 2, ⟨some "yes", some 1⟩⟩] := by
  simp [Graph.outEdges, exampleGraphC3, List.filter_cons]

theorem exampleGraphC3_mem0 : (0 : NodeId) ∈ exampleGraphC3.nodeIds := by
  simp [Graph.nodeIds, exampleGraphC3]

theorem exampleGraphC3_mem1 : (1 : NodeId) ∈ exampleGraphC3.nodeIds := by
  simp [Graph.nodeIds, exampleGraphC3]

/-- The concrete run of the modelled search on `exampleGraphC3`: the returned
path is the direct edge `[0, 1]`, not the cheaper detour. -/
theorem wheelchairPath_exampleC3 :
    wheelchairPath 0 1 exampleGraphC3 = .ok [0, 1] := by
  norm_num [wheelchairPath, astar, astarLoop, relaxEdge, pushImproved,
    pushFrontier, lookup?, walkPred, initState, exampleGraphC3_edges_len,
    exampleGraphC3_out0, exampleGraphC3_mem0, exampleGraphC3_mem1,
    euclid_exampleC3_21, euclidianDistNode_self, costWheelchair,
    List.find?_cons_of_pos, List.find?_cons_of_neg, List.filter_cons]

theorem pathCost_detourC3 :
    pathCost costWheelchair
      [(⟨0, 2, ⟨some "yes", some 1⟩⟩ : Edge ℝ), ⟨2, 1, ⟨some "yes", some 1⟩⟩] =
      .val 2 := by
  norm_num [pathCost, costWheelchair, CostVal.add]

/-- Counterexample to claim C3 as stated: `exampleGraphC3` has non-negative
lengths, both endpoints present, and an accessible path between them, yet the
search returns the direct path of cost `10` while the accessible detour costs
`2` — the returned path's total cost is not the minimum. -/
theorem returnsMinCost_counterexample :
    GraphWF exampleGraphC3 ∧
    NonnegLengths exampleGraphC3 ∧
    (0 : NodeId) ∈ exampleGraphC3.nodeIds ∧
    (1 : NodeId) ∈ exampleGraphC3.nodeIds ∧
    (∃ es c, IsEdgePath exampleGraphC3 0 1 es ∧
      pathCost costWheelchair es = .val c) ∧
    ¬ ReturnsMinCostPath exampleGraphC3 0 1 := by
  refine ⟨?_, ?_, exampleGraphC3_mem0, exampleGraphC3_mem1, ?_, ?_⟩
  · intro e he
    simp only [exampleGraphC3, List.mem_cons, List.not_mem_nil, or_false] at he
    rcases he with rfl | rfl | rfl <;>
      exact ⟨by simp [Graph.nodeIds, exampleGraphC3],
        by simp [Graph.nodeIds, exampleGraphC3]⟩
  · intro e he l hl
    simp only [exampleGraphC3, List.mem_cons, List.not_mem_nil, or_false] at he
    rcases he with rfl | rfl | rfl <;>
      · simp only [] at hl
        injection hl with hl
        rw [← hl]
        norm_num
  · refine ⟨[⟨0, 2, ⟨some "yes", some 1⟩⟩, ⟨2, 1, ⟨some "yes", some 1⟩⟩], 2,
      ⟨?_, rfl, ?_, rfl, rfl⟩, pathCost_detourC3⟩
    · simp [exampleGraphC3]
    · simp [exampleGraphC3]
  · rintro ⟨p, c, es, hok, hpath, hnodes, hcost, hmin⟩
    rw [wheelchairPath_exampleC3] at hok
    injection hok with hp
    rcases es with _ | ⟨e, es'⟩
    · simp [nodesOf, ← hp] at hnodes
    · rcases es' with _ | ⟨f, es''⟩
      · obtain ⟨hmem, hsrc, -⟩ := hpath
        have hdst : e.dst = 1 := by
          simp [nodesOf, ← hp] at hnodes
          exact hnodes
        simp only [exampleGraphC3, List.mem_cons, List.not_mem_nil,
          or_false] at hmem
        rcases hmem with rfl | rfl | rfl
        · have hc10 : c = 10 := by
            rw [pathCost_cons, pathCost_nil] at hcost
            norm_num [costWheelchair, CostVal.add] at hcost
            exact hcost.symm
          have h2 := hmin
            [⟨0, 2, ⟨some "yes", some 1⟩⟩, ⟨2, 1, ⟨some "yes", some 1⟩⟩] 2
            ⟨by simp [exampleGraphC3], rfl, by simp [exampleGraphC3], rfl, rfl⟩
            pathCost_detourC3
          rw [hc10] at h2
          linarith
        · simp at hdst
        · simp at hsrc
      · simp [nodesOf, ← hp] at hnodes

end ClaimC3Counterexample

/-! ## Optimality of the search under a consistent heuristic -/

section OptimalitySupport

variable {W : Type} [LinearOrderedField W]

variable {cost : NodeId → NodeId → EdgeData W → CostVal W}

variable {h : NodeId → NodeId → W}

theorem lookup?_cons {α : Type} {l : List (NodeId × α)} {k k' : NodeId} {a : α} :
    lookup? ((k, a) :: l) k' = if k = k' then some a else lookup? l k' := by
  by_cases hk : k = k'
  · simp [lookup?, List.find?_cons_of_pos, hk]
  · simp [lookup?, List.find?_cons_of_neg, hk]

theorem mem_pushFrontier_self (pri : W) (n : NodeId) :
    ∀ l : List (W × NodeId), (pri, n) ∈ pushFrontier pri n l := by
  intro l
  induction l with
  | nil => simp [pushFrontier]
  | cons e es ih =>
    rw [pushFrontier]
    split
    · exact List.mem_cons_self _ _
    · exact List.mem_cons.mpr (Or.inr ih)

theorem pushFrontier_mem_of_mem {pri : W} {n : NodeId} {x : W × NodeId} :
    ∀ {l : List (W × NodeId)}, x ∈ l → x ∈ pushFrontier pri n l := by
  intro l
  induction l with
  | nil => intro hx; cases hx
  | cons e es ih =>
    intro hx
    rw [pushFrontier]
    split
    · exact List.mem_cons.mpr (Or.inr hx)
    · rcases List.mem_cons.mp hx with hx | hx
      · exact List.mem_cons.mpr (Or.inl hx)
      · exact List.mem_cons.mpr (Or.inr (ih hx))

/-- The frontier stays sorted by priority under stable insertion. -/
theorem pushFrontier_sorted {pri : W} {n : NodeId} :
    ∀ {l : List (W × NodeId)},
      l.Pairwise (fun a b => a.1 ≤ b.1) →
      (pushFrontier pri n l).Pairwise (fun a b => a.1 ≤ b.1) := by
  intro l
  induction l with
  | nil => intro _; simp [pushFrontier]
  | cons e es ih =>
    intro hl
    have he := List.pairwise_cons.mp hl
    rw [pushFrontier]
    split
    · rename_i hlt
      refine List.pairwise_cons.mpr ⟨?_, hl⟩
      intro b hb
      rcases List.mem_cons.mp hb with rfl | hb
      · exact le_of_lt hlt
      · exact le_trans (le_of_lt hlt) (he.1 b hb)
    · rename_i hnlt
      refine List.pairwise_cons.mpr ⟨?_, ih he.2⟩
      intro b hb
      rcases mem_pushFrontier hb with rfl | hb
      · exact le_of_not_lt hnlt
      · exact he.1 b hb

theorem CostVal.add_assoc (x y z : CostVal W) :
    (x.add y).add z = x.add (y.add z) := by
  cases x <;> cases y <;> cases z <;> (simp [CostVal.add]; try ring)

theorem CostVal.add_val_zero (x : CostVal W) :
    x.add (.val 0) = x := by
  cases x <;> simp [CostVal.add]

theorem pathCost_append_single
    (cost : NodeId → NodeId → EdgeData W → CostVal W)
    (es : List (Edge W)) (e : Edge W) :
    pathCost cost (es ++ [e]) =
      (pathCost cost es).add (cost e.src e.dst e.data) := by
  induction es with
  | nil =>
    show (cost e.src e.dst e.data).add (.val 0) =
      (CostVal.val 0).add (cost e.src e.dst e.data)
    cases hc : cost e.src e.dst e.data <;> simp [CostVal.add]
  | cons f es ih =>
    show (cost f.src f.dst f.data).add (pathCost cost (es ++ [e])) = _
    rw [ih, pathCost_cons, CostVal.add_assoc]

theorem PCost.zero (G : Graph W) (cost : NodeId → NodeId → EdgeData W → CostVal W)
    (o : NodeId) : PCost G cost o o 0 :=
  ⟨[], rfl, rfl⟩

theorem PCost.stepEdge {G : Graph W}
    {cost : NodeId → NodeId → EdgeData W → CostVal W} {o m : NodeId} {gm : W}
    (hp : PCost G cost o m gm) {e : Edge W} (he : e ∈ G.edges)
    (hsrc : e.src = m) {ce : W} (hce : cost e.src e.dst e.data = .val ce) :
    PCost G cost o e.dst (gm + ce) := by
  obtain ⟨es, hpath, hcost⟩ := hp
  refine ⟨es ++ [e], hpath.append_single he hsrc, ?_⟩
  rw [pathCost_append_single, hcost, hce]
  rfl

/-- With non-negative edge costs, every chain cost is non-negative. -/
theorem pathCost_nonneg {G : Graph W}
    {cost : NodeId → NodeId → EdgeData W → CostVal W}
    (hnn : ∀ e ∈ G.edges, ∀ c, cost e.src e.dst e.data = .val c → 0 ≤ c) :
    ∀ (es : List (Edge W)) (u v : NodeId) (c : W), IsEdgePath G u v es →
      pathCost cost es = .val c → 0 ≤ c := by
  intro es
  induction es with
  | nil =>
    intro u v c _ hc
    injection hc with hc
    rw [← hc]
  | cons e es ih =>
    intro u v c hp hc
    obtain ⟨hmem, _, hrest⟩ := hp
    rw [pathCost_cons] at hc
    obtain ⟨ce, cs, hce, hcs, rfl⟩ := CostVal.add_eq_val hc
    have h1 : 0 ≤ ce := hnn e hmem ce hce
    have h2 : 0 ≤ cs := ih e.dst v cs hrest hcs
    linarith

theorem PCost.nonneg {G : Graph W}
    {cost : NodeId → NodeId → EdgeData W → CostVal W} {o n : NodeId} {c : W}
    (hnn : ∀ e ∈ G.edges, ∀ c, cost e.src e.dst e.data = .val c → 0 ≤ c)
    (hp : PCost G cost o n c) : 0 ≤ c := by
  obtain ⟨es, hpath, hcost⟩ := hp
  exact pathCost_nonneg hnn es o n c hpath hcost

/-- A consistent heuristic is bounded by any accessible chain cost plus the
value at the chain's end. -/
theorem heuristic_chain {G : Graph W}
    {cost : NodeId → NodeId → EdgeData W → CostVal W}
    {h : NodeId → NodeId → W} {t : NodeId}
    (hcons : ∀ e ∈ G.edges, ∀ c, cost e.src e.dst e.data = .val c →
      h e.src t ≤ c + h e.dst t) :
    ∀ (es : List (Edge W)) (u v : NodeId) (c : W), IsEdgePath G u v es →
      pathCost cost es = .val c → h u t ≤ c + h v t := by
  intro es
  induction es with
  | nil =>
    intro u v c hp hc
    cases hp
    injection hc with hc
    rw [← hc, zero_add]
  | cons e es ih =>
    intro u v c hp hc
    obtain ⟨hmem, hsrc, hrest⟩ := hp
    rw [pathCost_cons] at hc
    obtain ⟨ce, cs, hce, hcs, rfl⟩ := CostVal.add_eq_val hc
    have h1 : h u t ≤ ce + h e.dst t := hsrc ▸ hcons e hmem ce hce
    have h2 : h e.dst t ≤ cs + h v t := ih e.dst v cs hrest hcs
    linarith

end OptimalitySupport

section RelaxStep

variable {W : Type} [LinearOrderedField W]

variable {cost : NodeId → NodeId → EdgeData W → CostVal W}

variable {h : NodeId → NodeId → W}

/-- Computational case split for a single relaxation. -/
theorem relaxEdge_split (t : NodeId) (s : AStarState W) (e : Edge W) :
    (relaxEdge cost h t s e = s ∧
      (cost e.src e.dst e.data = .inf ∨
        ∃ c gv, cost e.src e.dst e.data = .val c ∧
          lookup? s.gscore e.dst = some gv ∧
          ¬ ((lookup? s.gscore e.src).getD 0 + c < gv))) ∨
    (∃ c, cost e.src e.dst e.data = .val c ∧
      (lookup? s.gscore e.dst = none ∨
        ∃ gv, lookup? s.gscore e.dst = some gv ∧
          (lookup? s.gscore e.src).getD 0 + c < gv) ∧
      relaxEdge cost h t s e =
        pushImproved h t s e.dst e.src ((lookup? s.gscore e.src).getD 0 + c)) := by
  unfold relaxEdge
  cases hc : cost e.src e.dst e.data with
  | inf => exact Or.inl ⟨rfl, Or.inl rfl⟩
  | val c =>
    cases hl : lookup? s.gscore e.dst with
    | none => exact Or.inr ⟨c, rfl, Or.inl rfl, rfl⟩
    | some gv =>
      dsimp only
      split
      · rename_i hlt
        exact Or.inr ⟨c, rfl, Or.inr ⟨gv, rfl, hlt⟩, rfl⟩
      · rename_i hnlt
        exact Or.inl ⟨rfl, Or.inr ⟨c, gv, rfl, rfl, hnlt⟩⟩

/-- Preservation of the core invariant by one relaxation of an edge leaving a
finalized node, together with preservation of already-relaxed edges and
establishment of the relaxed property for the processed edge. -/
theorem relax_step {G : Graph W} {o t : NodeId} {s : AStarState W} {e : Edge W}
    (hnn : ∀ f ∈ G.edges, ∀ c, cost f.src f.dst f.data = .val c → 0 ≤ c)
    (hc : CoreInv G cost h o t s) (he : e ∈ G.edges)
    (hsf : e.src ∈ s.finalized) :
    CoreInv G cost h o t (relaxEdge cost h t s e) ∧
    (∀ f, f.src ∈ s.finalized → RelaxedAt cost s f →
      RelaxedAt cost (relaxEdge cost h t s e) f) ∧
    RelaxedAt cost (relaxEdge cost h t s e) e := by
  obtain ⟨gu, hgu⟩ := hc.fing e.src hsf
  rcases @relaxEdge_split W _ cost h t s e with
    ⟨heq, hwhy⟩ | ⟨c, hce, himp, heq⟩
  · refine ⟨by rw [heq]; exact hc, fun f _ hf => by rw [heq]; exact hf, ?_⟩
    rw [heq]
    intro ce hce
    rcases hwhy with hinf | ⟨c, gv, hc', hgv, hnlt⟩
    · rw [hinf] at hce
      exact absurd hce (by simp)
    · rw [hc'] at hce
      injection hce with hcc
      subst hcc
      rw [hgu] at hnlt
      simp only [Option.getD_some] at hnlt
      exact ⟨gu, gv, hgu, hgv, le_of_not_lt hnlt⟩
  · -- improvement case: the state becomes a push of `e.dst` at `gu + c`
    rw [hgu] at heq himp
    simp only [Option.getD_some] at heq himp
    have hPg' : PCost G cost o e.dst (gu + c) :=
      (hc.gsound e.src gu hgu).stepEdge he rfl hce
    have hg'nn : (0 : W) ≤ gu + c := by
      have h1 : 0 ≤ gu := (hc.gsound e.src gu hgu).nonneg hnn
      have h2 : 0 ≤ c := hnn e he c hce
      linarith
    have hvnf : e.dst ∉ s.finalized := by
      intro hvf
      obtain ⟨gv', hgv'⟩ := hc.fing e.dst hvf
      rcases himp with hnone | ⟨gv, hgv, hlt⟩
      · rw [hgv'] at hnone; exact Option.noConfusion hnone
      · rw [hgv'] at hgv
        injection hgv with hgveq
        subst hgveq
        exact absurd hlt (not_lt.mpr (hc.finopt e.dst hvf gv' hgv' _ hPg'))
    have hvno : e.dst ≠ o := by
      intro hvo
      rcases himp with hnone | ⟨gv, hgv, hlt⟩
      · rw [hvo, hc.gorigin] at hnone; exact Option.noConfusion hnone
      · rw [hvo, hc.gorigin] at hgv
        injection hgv with hgveq
        subst hgveq
        linarith
    have hsv : e.dst ≠ e.src := by
      intro hcon
      exact hvnf (hcon ▸ hsf)
    have hlookup : ∀ n,
        lookup? (pushImproved h t s e.dst e.src (gu + c)).gscore n =
          if e.dst = n then some (gu + c) else lookup? s.gscore n :=
      fun n => lookup?_cons
    have hplookup : ∀ n,
        lookup? (pushImproved h t s e.dst e.src (gu + c)).pred n =
          if e.dst = n then some e.src else lookup? s.pred n :=
      fun n => lookup?_cons
    rw [heq]
    refine ⟨?_, ?_, ?_⟩
    · refine
        { graph_eq := hc.graph_eq
          sorted := pushFrontier_sorted hc.sorted
          ndfin := hc.ndfin
          tnotfin := hc.tnotfin
          entries := ?_, gsound := ?_, gorigin := ?_, fing := ?_
          finopt := ?_, cover := ?_, preddef := ?_, prednoto := ?_
          prededge := ?_, predorder := ?_ }
      · -- entries
        intro pri m hm
        rcases mem_pushFrontier hm with hm | hm
        · simp only [Prod.mk.injEq] at hm
          obtain ⟨h1, h2⟩ := hm
          refine ⟨gu + c, gu + c, by rw [h1, h2], ?_, le_refl _⟩
          rw [hlookup, if_pos h2.symm]
        · obtain ⟨gp, gm, hpri, hgm, hle⟩ := hc.entries pri m hm
          by_cases hvm : e.dst = m
          · refine ⟨gp, gu + c, hpri, by rw [hlookup, if_pos hvm], ?_⟩
            rcases himp with hnone | ⟨gv, hgv, hlt⟩
            · rw [← hvm, hnone] at hgm
              exact Option.noConfusion hgm
            · rw [← hvm, hgv] at hgm
              injection hgm with hgmeq
              subst hgmeq
              linarith
          · exact ⟨gp, gm, hpri, by rw [hlookup, if_neg hvm]; exact hgm, hle⟩
      · -- gsound
        intro n gn hgn
        rw [hlookup] at hgn
        by_cases hvn : e.dst = n
        · rw [if_pos hvn] at hgn
          injection hgn with hgneq
          subst hgneq
          exact hvn ▸ hPg'
        · rw [if_neg hvn] at hgn
          exact hc.gsound n gn hgn
      · -- gorigin
        rw [hlookup, if_neg hvno]
        exact hc.gorigin
      · -- fing
        intro u' hu'
        have hne : e.dst ≠ u' := by
          intro hcon
          exact hvnf (hcon ▸ hu')
        rw [hlookup, if_neg hne]
        exact hc.fing u' hu'
      · -- finopt
        intro u' hu' gu' hgu' c' hpc'
        have hne : e.dst ≠ u' := by
          intro hcon
          exact hvnf (hcon ▸ hu')
        rw [hlookup, if_neg hne] at hgu'
        exact hc.finopt u' hu' gu' hgu' c' hpc'
      · -- cover
        intro n gn hgn hnf'
        rw [hlookup] at hgn
        by_cases hvn : e.dst = n
        · rw [if_pos hvn] at hgn
          injection hgn with hgneq
          refine ⟨gu + c + h e.dst t, ?_, ?_⟩
          · rw [← hvn]
            exact mem_pushFrontier_self _ _ _
          · rw [← hgneq, ← hvn]
        · rw [if_neg hvn] at hgn
          obtain ⟨pri, hmem, hle⟩ := hc.cover n gn hgn hnf'
          exact ⟨pri, pushFrontier_mem_of_mem hmem, hle⟩
      · -- preddef
        intro n gn hgn
        by_cases hvn : e.dst = n
        · exact Or.inr ⟨e.src, by rw [hplookup, if_pos hvn]⟩
        · rw [hlookup, if_neg hvn] at hgn
          rcases hc.preddef n gn hgn with hno | ⟨m, hm⟩
          · exact Or.inl hno
          · exact Or.inr ⟨m, by rw [hplookup, if_neg hvn]; exact hm⟩
      · -- prednoto
        rw [hplookup, if_neg hvno]
        exact hc.prednoto
      · -- prededge
        intro n m hpm
        rw [hplookup] at hpm
        by_cases hvn : e.dst = n
        · rw [if_pos hvn] at hpm
          injection hpm with hmeq
          refine ⟨e, he, hmeq, hvn, c, gu + c, gu, hce, ?_, ?_, rfl, ?_⟩
          · rw [hlookup, if_pos hvn]
          · rw [← hmeq, hlookup, if_neg hsv]
            exact hgu
          · rw [← hmeq]
            exact hsf
        · rw [if_neg hvn] at hpm
          obtain ⟨f, hf, hfsrc, hfdst, cf, gn', gm', hcf, hgn', hgm', hsum,
            hmfin⟩ := hc.prededge n m hpm
          have hnem : e.dst ≠ m := by
            intro hcon
            exact hvnf (hcon ▸ hmfin)
          exact ⟨f, hf, hfsrc, hfdst, cf, gn', gm', hcf,
            by rw [hlookup, if_neg hvn]; exact hgn',
            by rw [hlookup, if_neg hnem]; exact hgm', hsum, hmfin⟩
      · -- predorder
        intro n m hpm l1 l2 hsplit
        rw [hplookup] at hpm
        by_cases hvn : e.dst = n
        · exfalso
          have hnf : n ∈ s.finalized := by
            rw [show s.finalized = l1 ++ n :: l2 from hsplit]
            simp
          exact hvnf (hvn ▸ hnf)
        · rw [if_neg hvn] at hpm
          exact hc.predorder n m hpm l1 l2 hsplit
    · -- previously relaxed edges of finalized sources stay relaxed
      intro f hfsf hf ce' hce'
      obtain ⟨guf, gwf, h1, h2, h3⟩ := hf ce' hce'
      have hnfsrc : e.dst ≠ f.src := by
        intro hcon
        exact hvnf (hcon ▸ hfsf)
      by_cases hvd : e.dst = f.dst
      · refine ⟨guf, gu + c, by rw [hlookup, if_neg hnfsrc]; exact h1,
          by rw [hlookup, if_pos hvd], ?_⟩
        rcases himp with hnone | ⟨gv, hgv, hlt⟩
        · rw [← hvd, hnone] at h2
          exact Option.noConfusion h2
        · rw [← hvd, hgv] at h2
          injection h2 with h2eq
          subst h2eq
          linarith
      · exact ⟨guf, gwf, by rw [hlookup, if_neg hnfsrc]; exact h1,
          by rw [hlookup, if_neg hvd]; exact h2, h3⟩
    · -- the processed edge is now relaxed
      intro ce' hce'
      rw [hce] at hce'
      injection hce' with hceq
      subst hceq
      refine ⟨gu, gu + c, ?_, ?_, le_refl _⟩
      · rw [hlookup, if_neg hsv]
        exact hgu
      · rw [hlookup, if_pos rfl]

end RelaxStep

section FoldAndPop

variable {W : Type} [LinearOrderedField W]

variable {cost : NodeId → NodeId → EdgeData W → CostVal W}

variable {h : NodeId → NodeId → W}

theorem mem_outEdges_of {G : Graph W} {u : NodeId} {e : Edge W}
    (he : e ∈ G.edges) (hsrc : e.src = u) : e ∈ G.outEdges u :=
  List.mem_filter.mpr ⟨he, by simp [hsrc]⟩

/-- Folding relaxation over a batch of edges leaving a finalized node
preserves the core invariant, keeps previously relaxed edges relaxed, and
relaxes every edge of the batch. -/
theorem foldl_relax_inv {G : Graph W} {o t u : NodeId}
    (hnn : ∀ f ∈ G.edges, ∀ c, cost f.src f.dst f.data = .val c → 0 ≤ c) :
    ∀ (es : List (Edge W)) (s : AStarState W),
      CoreInv G cost h o t s → u ∈ s.finalized →
      (∀ e ∈ es, e ∈ G.edges ∧ e.src = u) →
      CoreInv G cost h o t (es.foldl (relaxEdge cost h t) s) ∧
      (∀ f, f.src ∈ s.finalized → RelaxedAt cost s f →
        RelaxedAt cost (es.foldl (relaxEdge cost h t) s) f) ∧
      ∀ e ∈ es, RelaxedAt cost (es.foldl (relaxEdge cost h t) s) e := by
  intro es
  induction es with
  | nil =>
    intro s hc _ _
    exact ⟨hc, fun f _ hf => hf, by simp⟩
  | cons e es ih =>
    intro s hc hu hmem
    obtain ⟨he, hesrc⟩ := hmem e (List.mem_cons_self e es)
    have husrc : e.src ∈ s.finalized := by rw [hesrc]; exact hu
    obtain ⟨hc1, hmono1, hrel1⟩ := relax_step (o := o) hnn hc he husrc
    have hfin1 : (relaxEdge cost h t s e).finalized = s.finalized :=
      relaxEdge_finalized t s e
    have hu1 : u ∈ (relaxEdge cost h t s e).finalized := by
      rw [hfin1]; exact hu
    obtain ⟨hc2, hmono2, hrel2⟩ := ih (relaxEdge cost h t s e) hc1 hu1
      (fun f hf => hmem f (List.mem_cons.mpr (Or.inr hf)))
    rw [List.foldl_cons]
    refine ⟨hc2, ?_, ?_⟩
    · intro f hfs hf
      exact hmono2 f (by rw [hfin1]; exact hfs) (hmono1 f hfs hf)
    · intro f hf
      rcases List.mem_cons.mp hf with rfl | hf
      · exact hmono2 f (by rw [hfin1, hesrc]; exact hu) hrel1
      · exact hrel2 f hf

/-- Popping an already-finalized node preserves the invariant. -/
theorem inv_skip {G : Graph W} {o t : NodeId} {s : AStarState W}
    {pri : W} {u : NodeId} {rest : List (W × NodeId)}
    (hInv : Inv G cost h o t s) (hf : s.frontier = (pri, u) :: rest)
    (hufin : u ∈ s.finalized) :
    Inv G cost h o t { s with frontier := rest } := by
  obtain ⟨hc, hfr⟩ := hInv
  refine ⟨{ graph_eq := hc.graph_eq, sorted := ?_, entries := ?_,
            gsound := hc.gsound, gorigin := hc.gorigin, fing := hc.fing,
            finopt := hc.finopt, cover := ?_, ndfin := hc.ndfin,
            tnotfin := hc.tnotfin, preddef := hc.preddef,
            prednoto := hc.prednoto, prededge := hc.prededge,
            predorder := hc.predorder }, hfr⟩
  · have hs := hc.sorted
    rw [hf] at hs
    exact (List.pairwise_cons.mp hs).2
  · intro pri' m hm
    exact hc.entries pri' m (by rw [hf]; exact List.mem_cons.mpr (Or.inr hm))
  · intro n gn hgn hnf
    obtain ⟨pri', hmem, hle⟩ := hc.cover n gn hgn hnf
    rw [hf] at hmem
    rcases List.mem_cons.mp hmem with heq | hmem
    · exfalso
      have : n = u := congrArg Prod.snd heq
      exact hnf (this ▸ hufin)
    · exact ⟨pri', hmem, hle⟩

/-- Any accessible chain to an unfinalized node is covered by a frontier
entry of priority at most the chain cost plus the heuristic at the end. -/
theorem cut_aux {G : Graph W} {o t : NodeId} {s : AStarState W}
    (hc : CoreInv G cost h o t s) (hfr : FinRelax G cost s)
    (hcons : ∀ e ∈ G.edges, ∀ c, cost e.src e.dst e.data = .val c →
      h e.src t ≤ c + h e.dst t) :
    ∀ (es : List (Edge W)) (u n : NodeId) (c gu : W),
      IsEdgePath G u n es → pathCost cost es = .val c →
      u ∈ s.finalized → lookup? s.gscore u = some gu → n ∉ s.finalized →
      ∃ pri m, (pri, m) ∈ s.frontier ∧ pri ≤ gu + c + h n t := by
  intro es
  induction es with
  | nil =>
    intro u n c gu hp _ hu _ hn
    have hun : u = n := hp
    exact absurd (hun ▸ hu) hn
  | cons e es ih =>
    intro u n c gu hp hcost hu hgu hn
    obtain ⟨hmem, hsrc, hrest⟩ := hp
    rw [pathCost_cons] at hcost
    obtain ⟨ce, cs, hce, hcs, rfl⟩ := CostVal.add_eq_val hcost
    obtain ⟨gu', gw, hgu', hgw, hbound⟩ := hfr u hu e hmem hsrc ce hce
    have hgueq : gu' = gu := by
      rw [hsrc, hgu] at hgu'
      injection hgu' with hx
      exact hx.symm
    rw [hgueq] at hbound
    by_cases hfd : e.dst ∈ s.finalized
    · obtain ⟨pri, m, hm, hple⟩ := ih e.dst n cs gw hrest hcs hfd hgw hn
      exact ⟨pri, m, hm, by linarith⟩
    · obtain ⟨pri, hm, hple⟩ := hc.cover e.dst gw hgw hfd
      have hchain := heuristic_chain hcons es e.dst n cs hrest hcs
      exact ⟨pri, e.dst, hm, by linarith⟩

theorem cut_lemma {G : Graph W} {o t : NodeId} {s : AStarState W}
    (hc : CoreInv G cost h o t s) (hfr : FinRelax G cost s)
    (hcons : ∀ e ∈ G.edges, ∀ c, cost e.src e.dst e.data = .val c →
      h e.src t ≤ c + h e.dst t)
    {n : NodeId} (hn : n ∉ s.finalized) {es : List (Edge W)} {c : W}
    (hp : IsEdgePath G o n es) (hcost : pathCost cost es = .val c) :
    ∃ pri m, (pri, m) ∈ s.frontier ∧ pri ≤ c + h n t := by
  by_cases ho : o ∈ s.finalized
  · obtain ⟨pri, m, hm, hple⟩ :=
      cut_aux hc hfr hcons es o n c 0 hp hcost ho hc.gorigin hn
    exact ⟨pri, m, hm, by linarith⟩
  · obtain ⟨pri, hm, hple⟩ := hc.cover o 0 hc.gorigin ho
    have hchain := heuristic_chain hcons es o n c hp hcost
    exact ⟨pri, o, hm, by linarith⟩

/-- Pop optimality: when the head of the sorted frontier is an unfinalized
node, its recorded score is at most the cost of every accessible chain from
the origin to it. -/
theorem pop_min {G : Graph W} {o t : NodeId} {s : AStarState W}
    (hc : CoreInv G cost h o t s) (hfr : FinRelax G cost s)
    (hcons : ∀ e ∈ G.edges, ∀ c, cost e.src e.dst e.data = .val c →
      h e.src t ≤ c + h e.dst t)
    {pri : W} {u : NodeId} {rest : List (W × NodeId)}
    (hf : s.frontier = (pri, u) :: rest) (hunf : u ∉ s.finalized)
    {gu : W} (hgu : lookup? s.gscore u = some gu) {c : W}
    (hpc : PCost G cost o u c) : gu ≤ c := by
  obtain ⟨es, hp, hcost⟩ := hpc
  obtain ⟨pri', m', hm', hle⟩ := cut_lemma hc hfr hcons hunf hp hcost
  have hmin : pri ≤ pri' := by
    rw [hf] at hm'
    rcases List.mem_cons.mp hm' with heq | hmem
    · exact le_of_eq (congrArg Prod.fst heq).symm
    · have hs := hc.sorted
      rw [hf] at hs
      exact (List.pairwise_cons.mp hs).1 _ hmem
  obtain ⟨gp, gm, hpri, hgm, hgmle⟩ := hc.entries pri u
    (by rw [hf]; exact List.mem_cons_self _ _)
  have hgmgu : gu = gm := by
    rw [hgu] at hgm
    injection hgm
  linarith

end FoldAndPop

section ExpandStep

variable {W : Type} [LinearOrderedField W]

variable {cost : NodeId → NodeId → EdgeData W → CostVal W}

variable {h : NodeId → NodeId → W}

/-- Expanding an unfinalized popped node preserves the full invariant: the
node is finalized with a provably minimal score and all its outgoing edges
are relaxed. -/
theorem inv_expand {G : Graph W} {o t : NodeId} {s : AStarState W}
    {pri : W} {u : NodeId} {rest : List (W × NodeId)}
    (hnn : ∀ f ∈ G.edges, ∀ c, cost f.src f.dst f.data = .val c → 0 ≤ c)
    (hcons : ∀ e ∈ G.edges, ∀ c, cost e.src e.dst e.data = .val c →
      h e.src t ≤ c + h e.dst t)
    (hInv : Inv G cost h o t s) (hf : s.frontier = (pri, u) :: rest)
    (hunf : u ∉ s.finalized) (hut : u ≠ t) :
    Inv G cost h o t ((s.graph.outEdges u).foldl (relaxEdge cost h t)
      { s with frontier := rest, finalized := u :: s.finalized }) := by
  obtain ⟨hc, hfr⟩ := hInv
  obtain ⟨gp, gu, hpri, hgu, hgule⟩ := hc.entries pri u
    (by rw [hf]; exact List.mem_cons_self _ _)
  have hc1 : CoreInv G cost h o t
      { s with frontier := rest, finalized := u :: s.finalized } := by
    refine { graph_eq := hc.graph_eq, gsound := hc.gsound,
             gorigin := hc.gorigin, preddef := hc.preddef,
             prednoto := hc.prednoto, sorted := ?_, entries := ?_,
             fing := ?_, finopt := ?_, cover := ?_, ndfin := ?_,
             tnotfin := ?_, prededge := ?_, predorder := ?_ }
    · have hs := hc.sorted
      rw [hf] at hs
      exact (List.pairwise_cons.mp hs).2
    · intro pri' m hm
      exact hc.entries pri' m
        (by rw [hf]; exact List.mem_cons.mpr (Or.inr hm))
    · intro u' hu'
      rcases List.mem_cons.mp hu' with rfl | hu'
      · exact ⟨gu, hgu⟩
      · exact hc.fing u' hu'
    · intro u' hu' gu' hgu' c hpc
      rcases List.mem_cons.mp hu' with rfl | hu'
      · have : gu' = gu := by
          rw [hgu] at hgu'
          injection hgu' with hx
          exact hx.symm
        rw [this]
        exact pop_min hc hfr hcons hf hunf hgu hpc
      · exact hc.finopt u' hu' gu' hgu' c hpc
    · intro n gn hgn hnf
      have hnu : n ≠ u := fun hcon => hnf (hcon ▸ List.mem_cons_self u _)
      have hnf' : n ∉ s.finalized := fun hcon =>
        hnf (List.mem_cons.mpr (Or.inr hcon))
      obtain ⟨pri', hmem, hle⟩ := hc.cover n gn hgn hnf'
      rw [hf] at hmem
      rcases List.mem_cons.mp hmem with heq | hmem
      · exact absurd (congrArg Prod.snd heq) hnu
      · exact ⟨pri', hmem, hle⟩
    · exact List.nodup_cons.mpr ⟨hunf, hc.ndfin⟩
    · intro hmem
      rcases List.mem_cons.mp hmem with heq | hmem
      · exact hut heq.symm
      · exact hc.tnotfin hmem
    · intro n m hpm
      obtain ⟨e, he, hesrc, hedst, ce, gn, gm, hce, hgn, hgm, hsum, hmfin⟩ :=
        hc.prededge n m hpm
      exact ⟨e, he, hesrc, hedst, ce, gn, gm, hce, hgn, hgm, hsum,
        List.mem_cons.mpr (Or.inr hmfin)⟩
    · intro n m hpm l1 l2 hsplit
      rcases l1 with _ | ⟨a, l1'⟩
      · simp only [List.nil_append, List.cons.injEq] at hsplit
        obtain ⟨hnu, hl2⟩ := hsplit
        obtain ⟨e, he, hesrc, hedst, ce, gn, gm, hce, hgn, hgm, hsum, hmfin⟩ :=
          hc.prededge n m hpm
        rw [← hl2]
        exact hmfin
      · simp only [List.cons_append, List.cons.injEq] at hsplit
        exact hc.predorder n m hpm l1' l2 hsplit.2
  have hufin1 : u ∈ u :: s.finalized := List.mem_cons_self _ _
  have houtmem : ∀ e ∈ s.graph.outEdges u, e ∈ G.edges ∧ e.src = u := by
    intro e he
    rw [hc.graph_eq] at he
    exact outEdges_mem he
  obtain ⟨hc2, hmono, hrelall⟩ :=
    foldl_relax_inv hnn (s.graph.outEdges u) _ hc1 hufin1 houtmem
  refine ⟨hc2, ?_⟩
  intro u' hu' e he hesrc
  have hfin2 : ((s.graph.outEdges u).foldl (relaxEdge cost h t)
      { s with frontier := rest, finalized := u :: s.finalized }).finalized =
      u :: s.finalized := foldl_relax_finalized t _ _
  rw [hfin2] at hu'
  rcases List.mem_cons.mp hu' with rfl | hu'
  · have hmemout : e ∈ s.graph.outEdges u' := by
      rw [hc.graph_eq]
      exact mem_outEdges_of he hesrc
    exact hrelall e hmemout
  · have hrs := hfr u' hu' e he hesrc
    exact hmono e
      (by
        show e.src ∈ u :: s.finalized
        rw [hesrc]
        exact List.mem_cons.mpr (Or.inr hu')) hrs

end ExpandStep

section Reconstruction

variable {W : Type} [LinearOrderedField W]

variable {cost : NodeId → NodeId → EdgeData W → CostVal W}

variable {h : NodeId → NodeId → W}

theorem nodesOf_append_single (u : NodeId) (es : List (Edge W)) (e : Edge W) :
    nodesOf u (es ++ [e]) = nodesOf u es ++ [e.dst] := by
  simp [nodesOf]

/-- Walking predecessor links from a finalized node with suffix `l2` of the
finalized list reconstructs an accessible chain from the origin whose cost is
the node's recorded score. -/
theorem walk_aux {G : Graph W} {o t : NodeId} {s : AStarState W}
    (hc : CoreInv G cost h o t s) :
    ∀ (k : Nat) (l2 : List NodeId) (n : NodeId) (gn : W) (acc : List NodeId)
      (fuel : Nat),
      l2.length ≤ k →
      (∃ l1, s.finalized = l1 ++ n :: l2) →
      lookup? s.gscore n = some gn →
      l2.length + 1 ≤ fuel →
      ∃ es, walkPred s.pred fuel n acc = some (nodesOf o es ++ acc) ∧
        IsEdgePath G o n es ∧ pathCost cost es = .val gn := by
  intro k
  induction k with
  | zero =>
    intro l2 n gn acc fuel hk hsplit hgn hfuel
    have hl2nil : l2 = [] := List.eq_nil_of_length_eq_zero (Nat.le_zero.mp hk)
    subst hl2nil
    obtain ⟨fuel', rfl⟩ : ∃ f', fuel = f' + 1 := ⟨fuel - 1, by omega⟩
    rw [walkPred]
    cases hpred : lookup? s.pred n with
    | none =>
      have hno : n = o := by
        rcases hc.preddef n gn hgn with hno | ⟨m, hm⟩
        · exact hno
        · rw [hpred] at hm
          exact Option.noConfusion hm
      subst hno
      have hg0 : gn = 0 := by
        rw [hc.gorigin] at hgn
        injection hgn with hx
        exact hx.symm
      exact ⟨[], by simp [nodesOf], rfl, by rw [hg0]; rfl⟩
    | some m =>
      exfalso
      obtain ⟨l1, hl1⟩ := hsplit
      exact List.not_mem_nil m (hc.predorder n m hpred l1 [] hl1)
  | succ k ih =>
    intro l2 n gn acc fuel hk hsplit hgn hfuel
    obtain ⟨fuel', rfl⟩ : ∃ f', fuel = f' + 1 := ⟨fuel - 1, by omega⟩
    rw [walkPred]
    cases hpred : lookup? s.pred n with
    | none =>
      have hno : n = o := by
        rcases hc.preddef n gn hgn with hno | ⟨m, hm⟩
        · exact hno
        · rw [hpred] at hm
          exact Option.noConfusion hm
      subst hno
      have hg0 : gn = 0 := by
        rw [hc.gorigin] at hgn
        injection hgn with hx
        exact hx.symm
      exact ⟨[], by simp [nodesOf], rfl, by rw [hg0]; rfl⟩
    | some m =>
      obtain ⟨l1, hl1⟩ := hsplit
      obtain ⟨e, he, hesrc, hedst, ce, gn', gm, hce, hgn', hgm, hsum, hmfin⟩ :=
        hc.prededge n m hpred
      have hgneq : gn' = gn := by
        rw [hgn] at hgn'
        injection hgn' with hx
        exact hx.symm
      have hml2 : m ∈ l2 := hc.predorder n m hpred l1 l2 hl1
      obtain ⟨l2a, l2b, hl2⟩ := List.append_of_mem hml2
      have hsplit' : ∃ l1', s.finalized = l1' ++ m :: l2b :=
        ⟨l1 ++ n :: l2a, by rw [hl1, hl2]; simp⟩
      have hkb : l2b.length ≤ k := by
        have : l2.length = l2a.length + 1 + l2b.length := by
          rw [hl2]; simp; omega
        omega
      have hfb : l2b.length + 1 ≤ fuel' := by
        have : l2.length = l2a.length + 1 + l2b.length := by
          rw [hl2]; simp; omega
        omega
      obtain ⟨es, hwalk, hpath, hcost⟩ :=
        ih l2b m gm (n :: acc) fuel' hkb hsplit' hgm hfb
      refine ⟨es ++ [e], ?_, ?_, ?_⟩
      · show walkPred s.pred fuel' m (n :: acc) =
          some (nodesOf o (es ++ [e]) ++ acc)
        rw [hwalk, nodesOf_append_single, hedst]
        simp
      · exact hedst ▸ (hpath.append_single he hesrc)
      · rw [pathCost_append_single, hcost, hce]
        show CostVal.val (gm + ce) = CostVal.val gn
        rw [← hsum, hgneq]

/-- When the popped head of the frontier is the destination, the predecessor
walk succeeds and yields an accessible chain of minimal cost. -/
theorem found_result {G : Graph W} {o t : NodeId} {s : AStarState W}
    (hInv : Inv G cost h o t s)
    (hcons : ∀ e ∈ G.edges, ∀ c, cost e.src e.dst e.data = .val c →
      h e.src t ≤ c + h e.dst t)
    {pri : W} {rest : List (W × NodeId)}
    (hf : s.frontier = (pri, t) :: rest) :
    ∃ p es gt,
      walkPred s.pred (s.pred.length + s.finalized.length + 2) t [] = some p ∧
      p = nodesOf o es ∧ IsEdgePath G o t es ∧ pathCost cost es = .val gt ∧
      ∀ c, PCost G cost o t c → gt ≤ c := by
  obtain ⟨hc, hfr⟩ := hInv
  obtain ⟨gp, gt, hpri, hgt, hgtle⟩ := hc.entries pri t
    (by rw [hf]; exact List.mem_cons_self _ _)
  have hmin : ∀ c, PCost G cost o t c → gt ≤ c := fun c hpc =>
    pop_min hc hfr hcons hf hc.tnotfin hgt hpc
  have hfuel : s.pred.length + s.finalized.length + 2 =
      (s.pred.length + s.finalized.length + 1) + 1 := rfl
  rw [hfuel, walkPred]
  cases hpred : lookup? s.pred t with
  | none =>
    have hto : t = o := by
      rcases hc.preddef t gt hgt with hto | ⟨m, hm⟩
      · exact hto
      · rw [hpred] at hm
        exact Option.noConfusion hm
    have hg0 : gt = 0 := by
      rw [hto, hc.gorigin] at hgt
      injection hgt with hx
      exact hx.symm
    refine ⟨[t], [], gt, rfl, ?_, ?_, ?_, hmin⟩
    · simp [nodesOf, hto]
    · exact hto.symm
    · rw [hg0]; rfl
  | some m =>
    obtain ⟨e, he, hesrc, hedst, ce, gt', gm, hce, hgt', hgm, hsum, hmfin⟩ :=
      hc.prededge t m hpred
    have hgteq : gt' = gt := by
      rw [hgt] at hgt'
      injection hgt' with hx
      exact hx.symm
    obtain ⟨l1, l2, hl⟩ := List.append_of_mem hmfin
    have hlen : l2.length + 1 ≤ s.pred.length + s.finalized.length + 1 := by
      have : s.finalized.length = l1.length + 1 + l2.length := by
        rw [hl]; simp; omega
      omega
    obtain ⟨es, hwalk, hpath, hcost⟩ := walk_aux hc l2.length l2 m gm [t]
      (s.pred.length + s.finalized.length + 1) (le_refl _) ⟨l1, hl⟩ hgm hlen
    refine ⟨nodesOf o es ++ [t], es ++ [e], gt, ?_, ?_, ?_, ?_, hmin⟩
    · show walkPred s.pred (s.pred.length + s.finalized.length + 1) m [t] =
        some (nodesOf o es ++ [t])
      rw [hwalk]
    · rw [nodesOf_append_single, hedst]
    · exact hedst ▸ (hpath.append_single he hesrc)
    · rw [pathCost_append_single, hcost, hce]
      show CostVal.val (gm + ce) = CostVal.val gt
      rw [← hsum, hgteq]

end Reconstruction

section MainOptimality

variable {W : Type} [LinearOrderedField W]

variable {cost : NodeId → NodeId → EdgeData W → CostVal W}

variable {h : NodeId → NodeId → W}

/-- Master optimality lemma: from an invariant state with sufficient fuel,
when an accessible chain to the destination exists the loop returns a found
path realized by an accessible chain of minimal cost. -/
theorem astarLoop_optimal {G : Graph W} {o t : NodeId}
    (hnn : ∀ f ∈ G.edges, ∀ c, cost f.src f.dst f.data = .val c → 0 ≤ c)
    (hcons : ∀ e ∈ G.edges, ∀ c, cost e.src e.dst e.data = .val c →
      h e.src t ≤ c + h e.dst t) :
    ∀ (fuel : Nat) (s : AStarState W), Inv G cost h o t s →
      s.frontier.length + pendingCount G s.finalized < fuel →
      (∃ es c, IsEdgePath G o t es ∧ pathCost cost es = .val c) →
      ∃ p es gt s', astarLoop cost h t fuel s = .found p s' ∧
        p = nodesOf o es ∧ IsEdgePath G o t es ∧
        pathCost cost es = .val gt ∧
        ∀ c, PCost G cost o t c → gt ≤ c := by
  intro fuel
  induction fuel with
  | zero => intro s _ hlt _; omega
  | succ fuel ih =>
    intro s hInv hlt hex
    have hc := hInv.1
    have hfrx := hInv.2
    rw [astarLoop]
    rcases hf : s.frontier with _ | ⟨⟨pri, u⟩, rest⟩
    · exfalso
      obtain ⟨es, c, hp, hcost⟩ := hex
      obtain ⟨pri, m, hm, -⟩ := cut_lemma hc hfrx hcons hc.tnotfin hp hcost
      rw [hf] at hm
      exact List.not_mem_nil _ hm
    · dsimp only
      by_cases hut : u = t
      · subst hut
        obtain ⟨p, es, gt, hwalk, hpeq, hpath, hcost, hmin⟩ :=
          found_result hInv hcons hf
        rw [if_pos rfl, hwalk]
        exact ⟨p, es, gt, s, rfl, hpeq, hpath, hcost, hmin⟩
      · rw [if_neg hut]
        by_cases hufin : u ∈ s.finalized
        · rw [if_pos hufin]
          refine ih { s with frontier := rest }
            (inv_skip hInv hf hufin) ?_ hex
          have hsf : s.frontier.length = rest.length + 1 := by rw [hf]; rfl
          simp only []
          omega
        · rw [if_neg hufin]
          refine ih _ (inv_expand hnn hcons hInv hf hufin hut) ?_ hex
          set s1 : AStarState W :=
            { s with frontier := rest, finalized := u :: s.finalized }
          have hfin1 : ((s.graph.outEdges u).foldl (relaxEdge cost h t)
              s1).finalized = u :: s.finalized := by
            rw [foldl_relax_finalized]
          rw [hfin1]
          have hlen := @foldl_relax_frontier_length W _ cost h t
            (s.graph.outEdges u) s1
          have houtlen : (s.graph.outEdges u).length =
              (G.outEdges u).length := by rw [hc.graph_eq]
          have hs1f : s1.frontier.length = rest.length := rfl
          have hpc := pendingCount_cons (G := G) hufin
          have hsf : s.frontier.length = rest.length + 1 := by rw [hf]; rfl
          omega

end MainOptimality

section ClaimC3Amended

/-- The Euclidean heuristic is consistent on a well-formed, unit-consistent
graph whose destination node is present. -/
theorem euclid_consistent {G : Graph ℝ} (hwf : GraphWF G)
    (huc : UnitConsistent G) {t : NodeId} (ht : t ∈ G.nodeIds) :
    ∀ e ∈ G.edges, ∀ c, costWheelchair e.src e.dst e.data = .val c →
      euclidianDistNode e.src t G ≤ c + euclidianDistNode e.dst t G := by
  intro e he c hce
  obtain ⟨a, ha⟩ := findNode_isSome_of_mem (G := G) (hwf e he).1
  obtain ⟨b, hb⟩ := findNode_isSome_of_mem (G := G) (hwf e he).2
  obtain ⟨d, hd⟩ := findNode_isSome_of_mem (G := G) ht
  have htri := euclidianDistNode_triangle G (u := e.src) (w := e.dst)
    (v := t) ha hb hd
  have hle := huc e he c hce
  linarith

/-- Non-negative lengths make the wheelchair cost function non-negative. -/
theorem costWheelchair_nonneg_of {G : Graph ℝ} (hnn : NonnegLengths G) :
    ∀ e ∈ G.edges, ∀ c, costWheelchair e.src e.dst e.data = .val c → 0 ≤ c := by
  intro e he c hce
  unfold costWheelchair at hce
  split at hce
  · injection hce with hx
    cases hl : e.data.length with
    | none => rw [hl] at hx; simp at hx; rw [← hx]; norm_num
    | some l =>
      rw [hl] at hx
      simp at hx
      rw [← hx]
      exact hnn e he l hl
  · exact absurd hce (by simp)

/-- The invariant holds in the initial search state. -/
theorem inv_init {W : Type} [LinearOrderedField W] {G : Graph W}
    {cost : NodeId → NodeId → EdgeData W → CostVal W}
    {h : NodeId → NodeId → W} (o t : NodeId) :
    Inv G cost h o t (initState G h o t) := by
  refine ⟨{ graph_eq := rfl, sorted := ?_, entries := ?_, gsound := ?_,
            gorigin := ?_, fing := ?_, finopt := ?_, cover := ?_,
            ndfin := List.nodup_nil, tnotfin := List.not_mem_nil t,
            preddef := ?_, prednoto := rfl, prededge := ?_,
            predorder := ?_ }, ?_⟩
  · exact List.pairwise_singleton _ _
  · intro pri m hm
    simp only [initState, List.mem_singleton, Prod.mk.injEq] at hm
    obtain ⟨h1, h2⟩ := hm
    refine ⟨0, 0, by rw [h1, h2, zero_add], ?_, le_refl 0⟩
    rw [h2]
    show lookup? [(o, (0 : W))] o = some 0
    rw [lookup?_cons, if_pos rfl]
  · intro n gn hgn
    rw [show (initState G h o t).gscore = [(o, (0 : W))] from rfl,
      lookup?_cons] at hgn
    by_cases hno : o = n
    · rw [if_pos hno] at hgn
      injection hgn with hx
      rw [← hno, ← hx]
      exact PCost.zero G cost o
    · rw [if_neg hno] at hgn
      exact absurd hgn (by simp [lookup?])
  · show lookup? [(o, (0 : W))] o = some 0
    rw [lookup?_cons, if_pos rfl]
  · intro u hu; exact absurd hu (List.not_mem_nil u)
  · intro u hu; exact absurd hu (List.not_mem_nil u)
  · intro n gn hgn _
    rw [show (initState G h o t).gscore = [(o, (0 : W))] from rfl,
      lookup?_cons] at hgn
    by_cases hno : o = n
    · rw [if_pos hno] at hgn
      injection hgn with hx
      refine ⟨h o t, ?_, ?_⟩
      · rw [← hno]
        exact List.mem_singleton.mpr rfl
      · rw [← hno, ← hx, zero_add]
    · rw [if_neg hno] at hgn
      exact absurd hgn (by simp [lookup?])
  · intro n gn hgn
    rw [show (initState G h o t).gscore = [(o, (0 : W))] from rfl,
      lookup?_cons] at hgn
    by_cases hno : o = n
    · exact Or.inl hno.symm
    · rw [if_neg hno] at hgn
      exact absurd hgn (by simp [lookup?])
  · intro n m hpm
    exact absurd hpm (by simp [lookup?, initState])
  · intro n m hpm
    exact absurd hpm (by simp [lookup?, initState])
  · intro u hu
    exact absurd hu (List.not_mem_nil u)

/-- Amended claim C3: on a well-formed graph with non-negative lengths whose
accessible edges are at least as long as the straight-line distance between
their endpoints (unit consistency — the condition the spec itself states for
heuristic admissibility), whenever an accessible-edge-only chain between two
present nodes exists, `wheelchairPath` returns a path realized by an
accessible chain whose total cost equals the minimum total cost over all
accessible-edge-only chains between origin and destination. -/
theorem wheelchairPath_optimal (G : Graph ℝ) (o t : NodeId)
    (hwf : GraphWF G) (hnn : NonnegLengths G) (huc : UnitConsistent G)
    (ho : o ∈ G.nodeIds) (ht : t ∈ G.nodeIds)
    (hex : ∃ es c, IsEdgePath G o t es ∧
      pathCost costWheelchair es = .val c) :
    ReturnsMinCostPath G o t := by
  have hcostnn := costWheelchair_nonneg_of hnn
  have hcons := euclid_consistent hwf huc ht
  obtain ⟨p, es, gt, s', hloop, hpeq, hpath, hcost, hmin⟩ :=
    astarLoop_optimal (h := fun u v => euclidianDistNode u v G)
      hcostnn hcons (G.edges.length + 2)
      (initState G (fun u v => euclidianDistNode u v G) o t)
      (inv_init o t)
      (by
        have h1 : pendingCount G ([] : List NodeId) ≤ G.edges.length :=
          pendingCount_le G []
        show 1 + pendingCount G ([] : List NodeId) < G.edges.length + 2
        omega)
      hex
  refine ⟨p, gt, es, ?_, hpath, hpeq.symm, hcost, ?_⟩
  · unfold wheelchairPath
    unfold astar
    rw [if_pos ⟨ho, ht⟩, hloop]
  · intro es' c' hp' hc'
    exact hmin c' ⟨es', hp', hc'⟩

theorem euclid_exampleGraphC3w : euclidianDistNode 1 2 exampleGraphC3w = 5 := by
  rw [euclidianDistNode_eq exampleGraphC3w (u := 1) (v := 2)
    (a := ⟨0, 0, none⟩) (b := ⟨3, 4, none⟩) rfl rfl]
  exact sqrt_three_four

/-- Witness for the amended claim C3 on a concrete unit-consistent graph. -/
theorem wheelchairPath_optimal_witness :
    ReturnsMinCostPath exampleGraphC3w 1 2 := by
  refine wheelchairPath_optimal exampleGraphC3w 1 2 ?_ ?_ ?_ ?_ ?_ ?_
  · intro e he
    simp only [exampleGraphC3w, List.mem_singleton] at he
    subst he
    exact ⟨by simp [Graph.nodeIds, exampleGraphC3w],
      by simp [Graph.nodeIds, exampleGraphC3w]⟩
  · intro e he l hl
    simp only [exampleGraphC3w, List.mem_singleton] at he
    subst he
    injection hl with hx
    rw [← hx]
    norm_num
  · intro e he c hc
    simp only [exampleGraphC3w, List.mem_singleton] at he
    subst he
    have hval : CostVal.val (5 : ℝ) = CostVal.val c := by
      rw [← hc]; simp [costWheelchair]
    injection hval with hx
    show euclidianDistNode 1 2 exampleGraphC3w ≤ c
    rw [euclid_exampleGraphC3w, ← hx]
  · simp [Graph.nodeIds, exampleGraphC3w]
  · simp [Graph.nodeIds, exampleGraphC3w]
  · refine ⟨[⟨1, 2, ⟨some "yes", some 5⟩⟩], 5,
      ⟨by simp [exampleGraphC3w], rfl, rfl⟩, ?_⟩
    norm_num [pathCost, costWheelchair, CostVal.add]

end ClaimC3Amended

end GPS

